import Mathlib

/-!
Shallow embedding of the genehive core algorithms:
* the genetic risk propagation engine (`GeneticSimulator` in src/utils/autoSave.ts),
* the generational tree layout engine (`TreeLayoutEngine` in src/utils/treeLayout.ts).

JavaScript numbers are modelled as rationals (ℚ); all constants appearing in the
source (0.5, 0.75, 0.25, 0.05, 2.5, 0.8, 0.95, `Math.sqrt(0.01) = 0.1`) are exact
in binary-free rational arithmetic, so no floating-point rounding is modelled.
Insertion-ordered JavaScript objects/maps are modelled as association lists.
`explanation` strings (pure presentation text built with `toFixed`) are omitted;
`inheritancePattern` labels are kept verbatim.
-/

/- `Rat.mul`/`Rat.add`/`Rat.sub`/`Rat.inv` are `@[irreducible]` in Batteries,
which blocks `decide` on concrete rational computations; restore the default
reducibility locally so concrete runs of the engines can be checked by `decide`. -/
attribute [local semireducible] Rat.mul Rat.add Rat.sub Rat.inv

namespace Genehive

/-- `gender` field of a family member: `'male' | 'female'`. -/
inductive Gender where
  | male
  | female
deriving DecidableEq, Repr, BEq

/-- Inheritance type of a disease:
`'dominant' | 'recessive' | 'x-linked' | 'multifactorial'` (src/types). -/
inductive DiseaseType where
  | dominant
  | recessive
  | xlinked
  | multifactorial
deriving DecidableEq, Repr, BEq

/-- Disease record (src/types).  `description`/`color`/`name` are display metadata;
`name` is kept because risk results interpolate it, the rest is omitted. -/
structure Disease where
  id : String
  name : String
  dtype : DiseaseType
  prevalence : ℚ
  penetrance : ℚ
deriving DecidableEq, Repr

/-- 3D position (src/types `Position3D`). -/
structure Position3D where
  x : ℚ
  y : ℚ
  z : ℚ
deriving DecidableEq, Repr

/-- Layout configuration (src/types `TreeLayoutConfig`). -/
structure TreeLayoutConfig where
  generationSpacing : ℚ
  siblingSpacing : ℚ
  branchSpacing : ℚ
deriving DecidableEq, Repr

/-- Family member record (src/types `FamilyMember`).  `riskScores` is the
insertion-ordered object `{ [diseaseId: string]: number }` modelled as an
association list; `age` is kept for completeness though no engine reads it. -/
structure FamilyMember where
  id : String
  name : String
  age : Nat
  gender : Gender
  parentIds : List String
  childrenIds : List String
  diseases : List Disease
  riskScores : List (String × ℚ)
  position : Position3D
  generation : Nat
deriving DecidableEq, Repr

/-- Result record of one member × disease risk computation
(src/types `GeneticRisk`); the `explanation` presentation string is omitted. -/
structure GeneticRisk where
  memberId : String
  diseaseId : String
  riskScore : ℚ
  inheritancePattern : String
deriving DecidableEq, Repr

/-- `new Map(members.map(m => [m.id, m])).get(pid)`: on duplicate keys the last
entry wins, hence the lookup over the reversed list. -/
def mapGet (ms : List FamilyMember) (pid : String) : Option FamilyMember :=
  ms.reverse.find? (fun m => m.id == pid)

/-- `member.diseases.some(d => d.id === disease.id)`. -/
def hasDisease (m : FamilyMember) (d : Disease) : Bool :=
  m.diseases.any (fun x => x.id == d.id)

/-- `member.parentIds.map(id => memberMap.get(id)).filter(Boolean)`. -/
def resolveParents (m : FamilyMember) (ms : List FamilyMember) : List FamilyMember :=
  m.parentIds.filterMap (mapGet ms)

/-- Assignment `obj[k] = v` on an insertion-ordered object: overwrite in place
if the key is present, else append. -/
def setScore (scores : List (String × ℚ)) (k : String) (v : ℚ) : List (String × ℚ) :=
  if scores.any (fun p => p.1 == k) then
    scores.map (fun p => if p.1 == k then (k, v) else p)
  else
    scores ++ [(k, v)]

/-- `Math.min` on two rationals (no NaN inputs arise in this model). -/
def jsMin (a b : ℚ) : ℚ := if a ≤ b then a else b

/-- `GeneticSimulator.calculateDominantRisk`. -/
def calculateDominantRisk (affectedParents _allParents : List FamilyMember) :
    ℚ × String :=
  if affectedParents.length = 0 then
    (0, "no affected parents")
  else if affectedParents.length = 1 then
    (1/2, "autosomal dominant (one parent)")
  else
    (3/4, "autosomal dominant (both parents)")

/-- `GeneticSimulator.calculateRecessiveRisk`.  `Math.sqrt(0.01)` evaluates to
the IEEE double `0.1`, modelled as the rational `1/10`. -/
def calculateRecessiveRisk (affectedParents _allParents : List FamilyMember) :
    ℚ × String :=
  if affectedParents.length = 0 then
    ((1/10) * (1/4), "autosomal recessive (carrier risk)")
  else if affectedParents.length = 1 then
    (1/2, "autosomal recessive (one affected parent)")
  else
    (1, "autosomal recessive (both parents affected)")

/-- `GeneticSimulator.calculateXLinkedRisk`. -/
def calculateXLinkedRisk (affectedParents _allParents : List FamilyMember)
    (childGender : Gender) : ℚ × String :=
  let affectedMother := affectedParents.find? (fun p => p.gender == Gender.female)
  let affectedFather := affectedParents.find? (fun p => p.gender == Gender.male)
  match childGender with
  | Gender.male =>
    if affectedMother.isSome then
      (1/2, "X-linked (affected mother, male child)")
    else
      (0, "X-linked (male child, no affected mother)")
  | Gender.female =>
    if affectedFather.isSome && affectedMother.isSome then
      (1/2, "X-linked (both parents affected, female child)")
    else if affectedFather.isSome || affectedMother.isSome then
      (1/4, "X-linked (one parent affected, female child)")
    else
      (0, "X-linked (no affected parents, female child)")

/-- `GeneticSimulator.calculateMultifactorialRisk`. -/
def calculateMultifactorialRisk (affectedParents _allParents : List FamilyMember) :
    ℚ × String :=
  let baseRisk : ℚ := 1/20
  let riskMultiplier : ℚ := 5/2
  let risk := baseRisk * riskMultiplier ^ affectedParents.length
  (jsMin risk (4/5),
    "multifactorial (" ++ toString affectedParents.length ++ " affected parents)")

/-- `GeneticSimulator.calculateParentalRisk`: dispatch on the inheritance type.
The source's `default: unknown` branch is unreachable because the TypeScript
union (and the inductive here) has exactly the four listed constructors. -/
def calculateParentalRisk (parents : List FamilyMember) (d : Disease)
    (childGender : Gender) : ℚ × String :=
  let affectedParents := parents.filter (fun p => hasDisease p d)
  match d.dtype with
  | DiseaseType.dominant => calculateDominantRisk affectedParents parents
  | DiseaseType.recessive => calculateRecessiveRisk affectedParents parents
  | DiseaseType.xlinked => calculateXLinkedRisk affectedParents parents childGender
  | DiseaseType.multifactorial => calculateMultifactorialRisk affectedParents parents

/-- `GeneticSimulator.combineRisks`: noisy-OR combination. -/
def combineRisks (risk1 risk2 : ℚ) : ℚ :=
  1 - (1 - risk1) * (1 - risk2)

/-- `GeneticSimulator.calculateMemberDiseaseRisk`. -/
def calculateMemberDiseaseRisk (m : FamilyMember) (d : Disease)
    (ms : List FamilyMember) : GeneticRisk :=
  if hasDisease m d then
    { memberId := m.id, diseaseId := d.id, riskScore := 1,
      inheritancePattern := "affected" }
  else
    let parents := resolveParents m ms
    let pr :=
      if parents.length > 0 then
        let parental := calculateParentalRisk parents d m.gender
        (combineRisks d.prevalence parental.1, parental.2)
      else
        (d.prevalence, "population")
    { memberId := m.id, diseaseId := d.id,
      riskScore := jsMin (pr.1 * d.penetrance) (19/20),
      inheritancePattern := pr.2 }

/-- `GeneticSimulator.calculateDiseaseRisks`: one disease across all members;
returns the updated member list (each `riskScores[disease.id]` assigned) and the
list of `GeneticRisk` results in member order. -/
def calculateDiseaseRisks (ms : List FamilyMember) (d : Disease) :
    List FamilyMember × List GeneticRisk :=
  (ms.map (fun m =>
      { m with riskScores :=
          setScore m.riskScores d.id (calculateMemberDiseaseRisk m d ms).riskScore }),
    ms.map (fun m => calculateMemberDiseaseRisk m d ms))

/-- `GeneticSimulator.calculateFamilyRisks`: reset every `riskScores` to the
empty object, then accumulate per-disease results. -/
def calculateFamilyRisks (ms : List FamilyMember) (ds : List Disease) :
    List FamilyMember × List GeneticRisk :=
  let reset := ms.map (fun m => { m with riskScores := [] })
  ds.foldl (fun acc d =>
      let r := calculateDiseaseRisks acc.1 d
      (r.1, acc.2 ++ r.2))
    (reset, ([] : List GeneticRisk))

/-! ### Tree layout engine (src/utils/treeLayout.ts) -/

/-- Conversion to a signed 32-bit integer, the effect of JavaScript's
`hash & hash` (and of `<< 5` before the shift result is used). -/
def toInt32 (n : ℤ) : ℤ := (n + 2 ^ 31) % 2 ^ 32 - 2 ^ 31

/-- One loop iteration of `TreeLayoutEngine.hashString`:
`hash = ((hash << 5) - hash) + char; hash = hash & hash`.  The intermediate
double-precision sum is exact at these magnitudes, so only the two 32-bit
truncations are modelled. -/
def hashStep (h : ℤ) (c : Char) : ℤ := toInt32 (toInt32 (h * 32) - h + c.toNat)

/-- `TreeLayoutEngine.hashString`: fold `hashStep` over the character codes,
then `Math.abs`. -/
def hashString (s : String) : Nat := (s.data.foldl hashStep 0).natAbs

/-- `TreeLayoutEngine.calculateZPosition`: `(hash % 5) - 2`, range −2..2.
(The source also receives the member map but reads only `member.id`.) -/
def calculateZPosition (m : FamilyMember) : ℚ :=
  ((hashString m.id % 5 : ℤ) - 2 : ℤ)

/-- `TreeLayoutEngine.haveSameParents`: equal lengths, then equal `Set` sizes
and every deduplicated id of the first present among the second's parents. -/
def haveSameParents (m1 m2 : FamilyMember) : Bool :=
  if m1.parentIds.length ≠ m2.parentIds.length then
    false
  else
    let parents1 := m1.parentIds.dedup
    let parents2 := m2.parentIds.dedup
    parents1.length == parents2.length
      && parents1.all (fun pid => m2.parentIds.contains pid)

/-- `TreeLayoutEngine.findSiblings`. -/
def findSiblings (m : FamilyMember) (generationMembers : List FamilyMember) :
    List FamilyMember :=
  if m.parentIds.isEmpty then
    [m]
  else
    generationMembers.filter (fun other => haveSameParents m other)

/-- Worker loop of `TreeLayoutEngine.groupSiblings`: walk the generation in
order, skip already-processed ids, emit each fresh member's sibling group. -/
def groupSiblingsAux (bucket : List FamilyMember) :
    List FamilyMember → List String → List (List FamilyMember) →
      List (List FamilyMember)
  | [], _, groups => groups
  | m :: rest, processed, groups =>
    if m.id ∈ processed then
      groupSiblingsAux bucket rest processed groups
    else
      let siblings := findSiblings m bucket
      groupSiblingsAux bucket rest (processed ++ siblings.map FamilyMember.id)
        (groups ++ [siblings])

/-- `TreeLayoutEngine.groupSiblings`. -/
def groupSiblings (generationMembers : List FamilyMember) :
    List (List FamilyMember) :=
  groupSiblingsAux generationMembers generationMembers [] []

/-- `allMembers.find(m => m.id === member.id)` followed by a position
assignment: update the first member with the given id, leave the rest alone. -/
def setPosById : List FamilyMember → String → Position3D → List FamilyMember
  | [], _, _ => []
  | m :: rest, i, p =>
    if m.id == i then { m with position := p } :: rest
    else m :: setPosById rest i p

/-- The `siblings.forEach((member, index) => ...)` body of
`TreeLayoutEngine.positionGeneration`. -/
def placeSiblings (siblings : List FamilyMember) (startX sibSpacing y : ℚ)
    (all : List FamilyMember) : List FamilyMember :=
  siblings.enum.foldl
    (fun cur p =>
      setPosById cur p.2.id
        { x := startX + p.1 * sibSpacing, y := y, z := calculateZPosition p.2 })
    all

/-- The `siblingGroups.forEach` loop of `TreeLayoutEngine.positionGeneration`,
threading the running horizontal cursor `currentX`. -/
def positionGroups (config : TreeLayoutConfig) (y : ℚ) :
    List (List FamilyMember) → ℚ → List FamilyMember → List FamilyMember
  | [], _, all => all
  | siblings :: rest, currentX, all =>
    let groupWidth := ((siblings.length : ℚ) - 1) * config.siblingSpacing
    let startX := currentX - groupWidth / 2
    let all' := placeSiblings siblings startX config.siblingSpacing y all
    positionGroups config y rest (currentX + groupWidth + config.branchSpacing) all'

/-- `TreeLayoutEngine.positionGeneration`. -/
def positionGeneration (generationMembers : List FamilyMember) (generation : Nat)
    (config : TreeLayoutConfig) (allMembers : List FamilyMember) :
    List FamilyMember :=
  positionGroups config (-(generation : ℚ) * config.generationSpacing)
    (groupSiblings generationMembers) 0 allMembers

/-- Ids contributing to the BFS termination measure: all member ids plus all
ids still in the queue. -/
def bfsIds (ms : List FamilyMember) (queue : List (FamilyMember × Nat)) :
    Finset String :=
  (ms.map FamilyMember.id ++ queue.map (fun e => e.1.id)).toFinset

/-- Termination measure for the BFS `while` loop: the number of relevant ids
not yet visited (strictly decreases on every fresh visit), with the queue
length breaking ties (strictly decreases on every skip). -/
def bfsMeasure (ms : List FamilyMember) (queue : List (FamilyMember × Nat))
    (visited : List String) : Nat :=
  ((bfsIds ms queue).filter (fun i => i ∉ visited)).card

theorem mapGet_eq_some {ms : List FamilyMember} {pid : String} {c : FamilyMember}
    (h : mapGet ms pid = some c) : c ∈ ms ∧ c.id = pid := by
  unfold mapGet at h
  have hmem := List.mem_of_find?_eq_some h
  have hid := List.find?_some h
  simp only [beq_iff_eq] at hid
  exact ⟨(List.mem_reverse).1 hmem, hid⟩

/-- The enqueued children of a fresh visit
(`if (child && !visited.has(childId)) queue.push(...)`). -/
def freshChildren (ms : List FamilyMember) (visited : List String)
    (m : FamilyMember) : List FamilyMember :=
  m.childrenIds.filterMap (fun cid =>
    (mapGet ms cid).bind (fun c => if cid ∈ visited then none else some c))

theorem mem_freshChildren {ms : List FamilyMember} {visited : List String}
    {m c : FamilyMember} (h : c ∈ freshChildren ms visited m) :
    c ∈ ms ∧ c.id ∈ m.childrenIds ∧ c.id ∉ visited ∧ mapGet ms c.id = some c := by
  unfold freshChildren at h
  obtain ⟨cid, hcid, hc⟩ := List.mem_filterMap.1 h
  cases hget : mapGet ms cid with
  | none => rw [hget] at hc; simp at hc
  | some c' =>
    rw [hget] at hc
    by_cases hv : cid ∈ visited
    · simp [hv] at hc
    · simp only [Option.bind_some, if_neg hv, Option.some.injEq] at hc
      subst hc
      have hid := (mapGet_eq_some hget).2
      exact ⟨(mapGet_eq_some hget).1, hid ▸ hcid, hid ▸ hv, hid ▸ hget⟩

/-- The `while (queue.length > 0)` loop of
`TreeLayoutEngine.organizeByGenerations`.  Returns the visit log: each freshly
dequeued member paired with its assigned generation, in visit order. -/
def bfsAux (ms : List FamilyMember) (queue : List (FamilyMember × Nat))
    (visited : List String) (acc : List (FamilyMember × Nat)) :
    List (FamilyMember × Nat) :=
  match queue with
  | [] => acc
  | (m, g) :: rest =>
    if m.id ∈ visited then
      bfsAux ms rest visited acc
    else
      bfsAux ms (rest ++ (freshChildren ms visited m).map (fun c => (c, g + 1)))
        (m.id :: visited) (acc ++ [(m, g)])
  termination_by (bfsMeasure ms queue visited, queue.length)
  decreasing_by
  · apply Prod.Lex.right'
    · apply Finset.card_le_card
      intro i hi
      simp only [bfsMeasure, bfsIds, Finset.mem_filter, List.mem_toFinset,
        List.mem_append, List.mem_map] at hi ⊢
      refine ⟨?_, hi.2⟩
      rcases hi.1 with h | ⟨e, he, hei⟩
      · exact Or.inl h
      · exact Or.inr ⟨e, List.mem_cons_of_mem _ he, hei⟩
    · simp
  · apply Prod.Lex.left
    have hsub : ((bfsIds ms
          (rest ++ (freshChildren ms visited m).map (fun c => (c, g + 1)))).filter
            (fun i => i ∉ m.id :: visited)) ⊆
        ((bfsIds ms ((m, g) :: rest)).filter (fun i => i ∉ visited)).erase m.id := by
      intro i hi
      simp only [bfsIds, Finset.mem_filter, List.mem_toFinset, List.mem_append,
        List.mem_map, List.mem_cons, not_or, Finset.mem_erase] at hi ⊢
      refine ⟨hi.2.1, ?_, hi.2.2⟩
      rcases hi.1 with h | ⟨e, he, hei⟩
      · exact Or.inl h
      · rcases he with h | ⟨c, hc, rfl⟩
        · exact Or.inr ⟨e, Or.inr h, hei⟩
        · exact Or.inl ⟨c, (mem_freshChildren hc).1, hei⟩
    show bfsMeasure _ _ _ < bfsMeasure _ _ _
    calc bfsMeasure ms (rest ++ (freshChildren ms visited m).map (fun c => (c, g + 1)))
          (m.id :: visited)
        ≤ (((bfsIds ms ((m, g) :: rest)).filter (fun i => i ∉ visited)).erase m.id).card :=
          Finset.card_le_card hsub
      _ < ((bfsIds ms ((m, g) :: rest)).filter (fun i => i ∉ visited)).card := by
          apply Finset.card_erase_lt_of_mem
          simp only [bfsIds, Finset.mem_filter, List.mem_toFinset, List.mem_append,
            List.mem_map]
          exact ⟨Or.inr ⟨(m, g), List.mem_cons_self _ _, rfl⟩, by assumption⟩

/-- `TreeLayoutEngine.organizeByGenerations`: BFS from the roots (members with
no parents), all starting at generation 0. -/
def organizeByGenerations (ms : List FamilyMember) : List (FamilyMember × Nat) :=
  bfsAux ms ((ms.filter (fun m => m.parentIds.isEmpty)).map (fun m => (m, 0))) [] []

/-- The `member.generation = generation` assignments performed by the BFS:
every visited member's generation field is set, unvisited members keep their
previous value.  (Ids are unique in the declared data model, so keying the
in-place object mutation by id is faithful.) -/
def applyGenerations (visits : List (FamilyMember × Nat))
    (ms : List FamilyMember) : List FamilyMember :=
  ms.map (fun m =>
    match visits.find? (fun v => v.1.id == m.id) with
    | some v => { m with generation := v.2 }
    | none => m)

/-- Key iteration order of the `generations` `Map`: first-appearance order of
the generation numbers in the visit log. -/
def genKeys (visits : List (FamilyMember × Nat)) : List Nat :=
  visits.foldl (fun acc v => if v.2 ∈ acc then acc else acc ++ [v.2]) []

/-- The members pushed into the `generations` bucket for generation `g`,
in visit order. -/
def genBucket (visits : List (FamilyMember × Nat)) (g : Nat) :
    List FamilyMember :=
  (visits.filter (fun v => v.2 == g)).map (fun v => v.1)

/-- `TreeLayoutEngine.DEFAULT_CONFIG`. -/
def DEFAULT_CONFIG : TreeLayoutConfig :=
  { generationSpacing := 4, siblingSpacing := 3, branchSpacing := 2 }

/-- `TreeLayoutEngine.calculateLayout`: run the BFS (which assigns the
generation fields), copy the members, then position generation by generation. -/
def calculateLayout (ms : List FamilyMember) (config : TreeLayoutConfig) :
    List FamilyMember :=
  let visits := organizeByGenerations ms
  let positionedMembers := applyGenerations visits ms
  (genKeys visits).foldl
    (fun all g => positionGeneration (genBucket visits g) g config all)
    positionedMembers

/-- Fuelled mirror of the BFS `while` loop, one fuel unit per iteration;
`none` means the fuel ran out before the queue emptied.  Used to state that the
loop terminates on every input. -/
def bfsFuel (ms : List FamilyMember) :
    Nat → List (FamilyMember × Nat) → List String → List (FamilyMember × Nat) →
      Option (List (FamilyMember × Nat))
  | 0, queue, _, acc =>
    match queue with
    | [] => some acc
    | _ :: _ => none
  | fuel + 1, queue, visited, acc =>
    match queue with
    | [] => some acc
    | (m, g) :: rest =>
      if m.id ∈ visited then
        bfsFuel ms fuel rest visited acc
      else
        bfsFuel ms fuel
          (rest ++ (freshChildren ms visited m).map (fun c => (c, g + 1)))
          (m.id :: visited) (acc ++ [(m, g)])

/-- Fuelled mirror of `TreeLayoutEngine.calculateLayout` built on `bfsFuel`. -/
def calculateLayoutFuel (ms : List FamilyMember) (config : TreeLayoutConfig)
    (fuel : Nat) : Option (List FamilyMember) :=
  (bfsFuel ms fuel ((ms.filter (fun m => m.parentIds.isEmpty)).map (fun m => (m, 0)))
      [] []).map
    (fun visits =>
      (genKeys visits).foldl
        (fun all g => positionGeneration (genBucket visits g) g config all)
        (applyGenerations visits ms))

/-- When the fuelled loop completes, it computes exactly `bfsAux`.  (The
well-founded `bfsAux` does not reduce definitionally, so concrete runs are
evaluated through `bfsFuel` and transported along this lemma.) -/
theorem bfsAux_eq_of_bfsFuel {ms : List FamilyMember} {n : Nat}
    {queue : List (FamilyMember × Nat)} {visited : List String}
    {acc r : List (FamilyMember × Nat)}
    (h : bfsFuel ms n queue visited acc = some r) :
    bfsAux ms queue visited acc = r := by
  induction n generalizing queue visited acc with
  | zero =>
    cases queue with
    | nil =>
      simp only [bfsFuel, Option.some.injEq] at h
      rw [bfsAux, h]
    | cons e rest => simp [bfsFuel] at h
  | succ n ih =>
    cases queue with
    | nil =>
      simp only [bfsFuel, Option.some.injEq] at h
      rw [bfsAux, h]
    | cons e rest =>
      obtain ⟨m, g⟩ := e
      rw [bfsAux]
      rw [bfsFuel] at h
      by_cases hv : m.id ∈ visited
      · rw [if_pos hv] at h ⊢
        exact ih h
      · rw [if_neg hv] at h ⊢
        exact ih h

/-- Fuel adequacy along `calculateLayoutFuel`. -/
theorem calculateLayout_eq_of_fuel {ms : List FamilyMember}
    {config : TreeLayoutConfig} {n : Nat} {r : List FamilyMember}
    (h : calculateLayoutFuel ms config n = some r) :
    calculateLayout ms config = r := by
  unfold calculateLayoutFuel at h
  cases hb : bfsFuel ms n
      ((ms.filter (fun m => m.parentIds.isEmpty)).map (fun m => (m, 0))) [] [] with
  | none => rw [hb] at h; simp at h
  | some visits =>
    rw [hb] at h
    simp only [Option.map_some', Option.some.injEq] at h
    unfold calculateLayout organizeByGenerations
    rw [bfsAux_eq_of_bfsFuel hb]
    exact h

/-- Fuelled mirror of `TreeLayoutEngine.countDescendants`.  The source recursion
`count += countDescendants(child)` carries no visited set, so it is not
structurally terminating: on a `childrenIds` cycle no amount of fuel suffices. -/
def countDescendantsFuel (ms : List FamilyMember) :
    Nat → FamilyMember → Option Nat
  | 0, _ => none
  | fuel + 1, m =>
    m.childrenIds.foldlM
      (fun count cid =>
        match mapGet ms cid with
        | none => some count
        | some child => (countDescendantsFuel ms fuel child).map (fun k => count + k))
      m.childrenIds.length

/-- Fuelled mirror of `TreeLayoutEngine.optimizeLayout`.  The source copies the
members, buckets the copies by their `generation` field, and sorts each bucket
array in place by descending descendant count; the sorted bucket arrays are
then discarded (only the temporary `generations` map is reordered), so on
termination the returned list is the unchanged copies.  Termination itself
requires the comparator — and hence `countDescendants` — to be evaluated on the
elements of every bucket that the sort actually compares, i.e. every bucket
with at least two members. -/
def optimizeLayoutFuel (ms : List FamilyMember) (fuel : Nat) :
    Option (List FamilyMember) :=
  let keys := ms.foldl
    (fun acc m => if m.generation ∈ acc then acc else acc ++ [m.generation]) []
  let buckets := keys.map (fun g => ms.filter (fun m => m.generation == g))
  if buckets.all (fun b =>
      b.length ≤ 1 || b.all (fun m => (countDescendantsFuel ms fuel m).isSome)) then
    some ms
  else
    none

/-- `Math.max` on two rationals. -/
def jsMax (a b : ℚ) : ℚ := if a ≤ b then b else a

/-- `Math.min(...values)` over a non-empty spread (0 for the empty list, which
the source never reaches because of its explicit empty check). -/
def listMin : List ℚ → ℚ
  | [] => 0
  | x :: xs => xs.foldl jsMin x

/-- `Math.max(...values)` over a non-empty spread. -/
def listMax : List ℚ → ℚ
  | [] => 0
  | x :: xs => xs.foldl jsMax x

/-- `TreeLayoutEngine.calculateBoundingBox`: (min, max, center); the empty
member list yields the degenerate zero box. -/
def calculateBoundingBox (ms : List FamilyMember) :
    Position3D × Position3D × Position3D :=
  match ms with
  | [] => ({ x := 0, y := 0, z := 0 }, { x := 0, y := 0, z := 0 },
      { x := 0, y := 0, z := 0 })
  | _ :: _ =>
    let positions := ms.map FamilyMember.position
    let mn : Position3D :=
      { x := listMin (positions.map Position3D.x),
        y := listMin (positions.map Position3D.y),
        z := listMin (positions.map Position3D.z) }
    let mx : Position3D :=
      { x := listMax (positions.map Position3D.x),
        y := listMax (positions.map Position3D.y),
        z := listMax (positions.map Position3D.z) }
    (mn, mx,
      { x := (mn.x + mx.x) / 2, y := (mn.y + mx.y) / 2, z := (mn.z + mx.z) / 2 })

section Scratch

def testDisease : Disease :=
  { id := "d1", name := "D", dtype := DiseaseType.dominant,
    prevalence := 1/100, penetrance := 9/10 }

def blankPos : Position3D := { x := 0, y := 0, z := 0 }

def testParent : FamilyMember :=
  { id := "p1", name := "P", age := 40, gender := Gender.male,
    parentIds := [], childrenIds := ["c1"], diseases := [testDisease],
    riskScores := [], position := blankPos, generation := 0 }

def testChild : FamilyMember :=
  { id := "c1", name := "C", age := 10, gender := Gender.female,
    parentIds := ["p1"], childrenIds := [], diseases := [],
    riskScores := [], position := blankPos, generation := 0 }

example :
    (calculateMemberDiseaseRisk testParent testDisease [testParent, testChild]).riskScore
      = 1 := by decide

example :
    (calculateMemberDiseaseRisk testChild testDisease [testParent, testChild]).riskScore
      = (1 - (1 - 1/100) * (1 - 1/2)) * (9/10) := by decide

def mkMember (i : String) (g : Gender) (ps cs : List String) : FamilyMember :=
  { id := i, name := i, age := 30, gender := g, parentIds := ps,
    childrenIds := cs, diseases := [], riskScores := [],
    position := blankPos, generation := 0 }

def diamondFamily : List FamilyMember :=
  [ mkMember "G" Gender.male [] ["A"],
    mkMember "B" Gender.female [] ["C"],
    mkMember "A" Gender.male ["G"] ["C"],
    mkMember "C" Gender.female ["A", "B"] [] ]

example :
    (organizeByGenerations diamondFamily).map (fun v => (v.1.id, v.2))
      = [("G", 0), ("B", 0), ("A", 1), ("C", 1)] := by
  have h : (bfsFuel diamondFamily 10
      ((diamondFamily.filter (fun m => m.parentIds.isEmpty)).map (fun m => (m, 0)))
      [] []).map (List.map (fun v => (v.1.id, v.2)))
      = some [("G", 0), ("B", 0), ("A", 1), ("C", 1)] := by decide
  cases hb : bfsFuel diamondFamily 10
      ((diamondFamily.filter (fun m => m.parentIds.isEmpty)).map (fun m => (m, 0)))
      [] [] with
  | none => rw [hb] at h; simp at h
  | some r =>
    rw [hb] at h
    simp only [Option.map_some', Option.some.injEq] at h
    rw [organizeByGenerations, bfsAux_eq_of_bfsFuel hb, h]

example : hashString "A" = 65 := by decide

example :
    (calculateLayout diamondFamily DEFAULT_CONFIG).map
        (fun m => (m.id, m.generation, m.position.y))
      = [("G", 0, 0), ("B", 0, 0), ("A", 1, -4), ("C", 1, -4)] := by
  have h : calculateLayoutFuel diamondFamily DEFAULT_CONFIG 10
      = some ((calculateLayoutFuel diamondFamily DEFAULT_CONFIG 10).get (by decide)) :=
    Option.eq_some_of_isSome (by decide)
  rw [calculateLayout_eq_of_fuel h]
  decide

end Scratch

/-! ### Spec-side definitions and bridging lemmas -/

theorem jsMin_eq_min (a b : ℚ) : jsMin a b = min a b := (min_def a b).symm

theorem find?_isSome_eq_any {α : Type} (p : α → Bool) (l : List α) :
    (l.find? p).isSome = l.any p := by
  induction l with
  | nil => rfl
  | cons x xs ih =>
    rw [List.any_cons]
    by_cases h : p x
    · rw [List.find?_cons_of_pos _ h, h, Bool.true_or]
      rfl
    · rw [List.find?_cons_of_neg _ h, ih, Bool.eq_false_iff.2 h, Bool.false_or]

/-- The parental-risk table of spec §4.1 for the three non-sex-linked patterns,
indexed by the number `k` of affected resolved parents (the x-linked rows are
the subject of claim C3; the value recorded here for that constructor is a
placeholder that no theorem uses). -/
def specParentalRisk (t : DiseaseType) (k : Nat) : ℚ :=
  match t with
  | DiseaseType.dominant => if k = 0 then 0 else if k = 1 then 1/2 else 3/4
  | DiseaseType.recessive =>
      if k = 0 then (1/10) * (1/4) else if k = 1 then 1/2 else 1
  | DiseaseType.multifactorial => min ((1/20) * (5/2) ^ k) (4/5)
  | DiseaseType.xlinked => 0

/-- The x-linked parental-risk rule as the code actually implements it
(amended claim C3): a male child's contribution is 0.5 exactly when some
affected parent is female; a female child's contribution is 0.5 when both an
affected female parent (mother) and an affected male parent (father) exist,
0.25 when at least one parent is affected but not both such parents exist,
and 0 otherwise. -/
def amendedXLinkedRisk (affectedParents : List FamilyMember) (g : Gender) : ℚ :=
  match g with
  | Gender.male =>
    if affectedParents.any (fun p => p.gender == Gender.female) then 1/2 else 0
  | Gender.female =>
    if affectedParents.any (fun p => p.gender == Gender.female)
        && affectedParents.any (fun p => p.gender == Gender.male) then 1/2
    else if affectedParents.any (fun p => p.gender == Gender.female)
        || affectedParents.any (fun p => p.gender == Gender.male) then 1/4
    else 0

/-! ### Claim C1 -/

/-- C1: for every person and disease, if the disease id is among the person's
diagnosed diseases, the risk computation short-circuits: the returned risk is
exactly 1.0 with inheritance-pattern label "affected" (so no parental rule,
penetrance multiplication or 0.95 cap touches the result). -/
theorem C1_affected_short_circuit (m : FamilyMember) (d : Disease)
    (ms : List FamilyMember) (h : hasDisease m d = true) :
    (calculateMemberDiseaseRisk m d ms).riskScore = 1 ∧
      (calculateMemberDiseaseRisk m d ms).inheritancePattern = "affected" := by
  unfold calculateMemberDiseaseRisk
  rw [if_pos h]
  exact ⟨rfl, rfl⟩

/-- Witness for C1 at a concrete diagnosed member. -/
theorem C1_witness :
    hasDisease testParent testDisease = true ∧
      (calculateMemberDiseaseRisk testParent testDisease
          [testParent, testChild]).riskScore = 1 ∧
      (calculateMemberDiseaseRisk testParent testDisease
          [testParent, testChild]).inheritancePattern = "affected" :=
  ⟨by decide, C1_affected_short_circuit testParent testDisease
    [testParent, testChild] (by decide)⟩

/-! ### Claim C2 -/

/-- C2: for every non-affected person with at least one resolved parent and a
dominant, recessive or multifactorial disease, the parental risk equals the
spec table (0 / 0.5 / 0.75; √0.01·0.25 / 0.5 / 1; 0.05·2.5^k capped at 0.8),
and the final score is `1 - (1 - prevalence) * (1 - p)` times penetrance,
capped at 0.95. -/
theorem C2_parental_table_and_combine (m : FamilyMember) (d : Disease)
    (ms : List FamilyMember) (hnot : hasDisease m d = false)
    (hpar : resolveParents m ms ≠ [])
    (hty : d.dtype ≠ DiseaseType.xlinked) :
    (calculateParentalRisk (resolveParents m ms) d m.gender).1 =
      specParentalRisk d.dtype
        ((resolveParents m ms).filter (fun p => hasDisease p d)).length ∧
    (calculateMemberDiseaseRisk m d ms).riskScore =
      min ((1 - (1 - d.prevalence) *
          (1 - specParentalRisk d.dtype
            ((resolveParents m ms).filter (fun p => hasDisease p d)).length)) *
        d.penetrance) (19/20) := by
  have hlen : (resolveParents m ms).length > 0 :=
    List.length_pos.2 hpar
  have htable : (calculateParentalRisk (resolveParents m ms) d m.gender).1 =
      specParentalRisk d.dtype
        ((resolveParents m ms).filter (fun p => hasDisease p d)).length := by
    unfold calculateParentalRisk
    cases hd : d.dtype with
    | dominant =>
      simp only [calculateDominantRisk, specParentalRisk]
      generalize ((resolveParents m ms).filter (fun p => hasDisease p d)).length = k
      rcases k with _ | _ | k <;> simp
    | recessive =>
      simp only [calculateRecessiveRisk, specParentalRisk]
      generalize ((resolveParents m ms).filter (fun p => hasDisease p d)).length = k
      rcases k with _ | _ | k <;> simp
    | xlinked => exact absurd hd hty
    | multifactorial =>
      simp only [calculateMultifactorialRisk, specParentalRisk]
      simp [jsMin_eq_min]

  refine ⟨htable, ?_⟩
  unfold calculateMemberDiseaseRisk
  rw [if_neg (by simp [hnot])]
  simp only [if_pos hlen, jsMin_eq_min, combineRisks]
  rw [htable]

/-- Witness for C2: a non-affected child of one affected parent under a
dominant disease. -/
theorem C2_witness :
    hasDisease testChild testDisease = false ∧
      resolveParents testChild [testParent, testChild] ≠ [] ∧
      testDisease.dtype ≠ DiseaseType.xlinked ∧
      (calculateMemberDiseaseRisk testChild testDisease
          [testParent, testChild]).riskScore =
        min ((1 - (1 - testDisease.prevalence) *
            (1 - specParentalRisk testDisease.dtype
              ((resolveParents testChild [testParent, testChild]).filter
                (fun p => hasDisease p testDisease)).length)) *
          testDisease.penetrance) (19/20) :=
  ⟨by decide, by decide, by decide,
    (C2_parental_table_and_combine testChild testDisease [testParent, testChild]
      (by decide) (by decide) (by decide)).2⟩

/-! ### Claim C3 -/

def xDisease : Disease :=
  { id := "xd", name := "XD", dtype := DiseaseType.xlinked,
    prevalence := 1/100, penetrance := 1 }

/-- An affected female parent. -/
def affFemaleParent1 : FamilyMember :=
  { mkMember "F1" Gender.female [] ["FC"] with diseases := [xDisease] }

/-- A second affected female parent. -/
def affFemaleParent2 : FamilyMember :=
  { mkMember "F2" Gender.female [] ["FC"] with diseases := [xDisease] }

/-- Counterexample to C3 as stated: a female child whose two resolved parents
are both affected (both female) receives an x-linked parental contribution of
0.25, not the 0.5 the claim assigns to "both parents affected". -/
theorem C3_counterexample :
    ([affFemaleParent1, affFemaleParent2].filter
        (fun p => hasDisease p xDisease)).length = 2 ∧
      (calculateParentalRisk [affFemaleParent1, affFemaleParent2] xDisease
        Gender.female).1 = 1/4 ∧
      (1/4 : ℚ) ≠ 1/2 := by
  refine ⟨by decide, by decide, by norm_num⟩

/-- Amended C3: for x-linked diseases a male child's parental contribution is
0.5 exactly when an affected female parent (mother) exists — in particular an
affected father never raises a son's contribution — and a female child's
contribution is 0.5 when both an affected mother and an affected father exist,
0.25 when some parent is affected but not both such parents exist, else 0. -/
theorem C3_amended_xlinked_rule (parents : List FamilyMember) (d : Disease)
    (g : Gender) (hty : d.dtype = DiseaseType.xlinked) :
    (calculateParentalRisk parents d g).1 =
      amendedXLinkedRisk (parents.filter (fun p => hasDisease p d)) g := by
  unfold calculateParentalRisk
  rw [hty]
  unfold calculateXLinkedRisk amendedXLinkedRisk
  cases g with
  | male =>
    simp only [find?_isSome_eq_any]
    generalize (List.filter (fun p => hasDisease p d) parents).any
      (fun p => p.gender == Gender.female) = a
    cases a <;> rfl
  | female =>
    simp only [find?_isSome_eq_any]
    generalize (List.filter (fun p => hasDisease p d) parents).any
      (fun p => p.gender == Gender.female) = a
    generalize (List.filter (fun p => hasDisease p d) parents).any
      (fun p => p.gender == Gender.male) = b
    cases a <;> cases b <;> rfl

/-- Witness for the amended C3: male child, affected father, unaffected
mother — contribution 0. -/
theorem C3_witness :
    xDisease.dtype = DiseaseType.xlinked ∧
      (calculateParentalRisk
          [{ mkMember "FA" Gender.male [] [] with diseases := [xDisease] },
           mkMember "MO" Gender.female [] []] xDisease Gender.male).1 =
        amendedXLinkedRisk
          (([{ mkMember "FA" Gender.male [] [] with diseases := [xDisease] },
             mkMember "MO" Gender.female [] []]).filter
            (fun p => hasDisease p xDisease)) Gender.male ∧
      (calculateParentalRisk
          [{ mkMember "FA" Gender.male [] [] with diseases := [xDisease] },
           mkMember "MO" Gender.female [] []] xDisease Gender.male).1 = 0 :=
  ⟨by decide,
    C3_amended_xlinked_rule _ xDisease Gender.male (by decide),
    by decide⟩

/-! ### Claim C4 -/

/-- C4: a person with no parents and no diagnosis of `d` scores exactly
`min(prevalence * penetrance, 0.95)`. -/
theorem C4_founder_base_risk (m : FamilyMember) (d : Disease)
    (ms : List FamilyMember) (hp : m.parentIds = [])
    (hnd : hasDisease m d = false) :
    (calculateMemberDiseaseRisk m d ms).riskScore =
      min (d.prevalence * d.penetrance) (19/20) := by
  unfold calculateMemberDiseaseRisk
  rw [if_neg (by simp [hnd])]
  have hres : resolveParents m ms = [] := by
    unfold resolveParents
    rw [hp]
    rfl
  simp [hres, jsMin_eq_min]

/-- Witness for C4 at a concrete parentless, undiagnosed member. -/
theorem C4_witness :
    (mkMember "R" Gender.male [] []).parentIds = [] ∧
      hasDisease (mkMember "R" Gender.male [] []) testDisease = false ∧
      (calculateMemberDiseaseRisk (mkMember "R" Gender.male [] [])
          testDisease []).riskScore =
        min (testDisease.prevalence * testDisease.penetrance) (19/20) :=
  ⟨by decide, by decide,
    C4_founder_base_risk (mkMember "R" Gender.male [] []) testDisease []
      (by decide) (by decide)⟩

/-! ### Claim C5 -/

/-- A dominant disease with zero prevalence but full penetrance. -/
def zeroPrevDisease : Disease :=
  { id := "zp", name := "ZP", dtype := DiseaseType.dominant,
    prevalence := 0, penetrance := 1 }

/-- An affected parent of `zpChild` for the zero-prevalence disease. -/
def zpParent : FamilyMember :=
  { mkMember "ZP1" Gender.male [] ["ZC"] with diseases := [zeroPrevDisease] }

/-- The non-affected child of `zpParent`. -/
def zpChild : FamilyMember := mkMember "ZC" Gender.female ["ZP1"] []

/-- Counterexample to C5 as stated: under a disease with prevalence 0 (but
penetrance 1), a non-affected child of one affected parent receives risk 0.5
from `calculateFamilyRisks`, not 0. -/
theorem C5_counterexample :
    hasDisease zpChild zeroPrevDisease = false ∧
      zeroPrevDisease.prevalence = 0 ∧
      (calculateFamilyRisks [zpParent, zpChild] [zeroPrevDisease]).1.map
        (fun m => (m.id, m.riskScores)) =
        [("ZP1", [("zp", 1)]), ("ZC", [("zp", 1/2)])] ∧
      (1/2 : ℚ) ≠ 0 := by
  refine ⟨by decide, by decide, by decide, by norm_num⟩

/-- Amended C5: penetrance 0 forces risk 0 for every non-affected member, no
matter how many parents are affected; prevalence 0 forces risk 0 only in the
absence of a parental contribution (in particular when no parent resolves). -/
theorem C5_amended_zero_factors (m : FamilyMember) (d : Disease)
    (ms : List FamilyMember) (hnd : hasDisease m d = false) :
    (d.penetrance = 0 → (calculateMemberDiseaseRisk m d ms).riskScore = 0) ∧
    (d.prevalence = 0 → resolveParents m ms = [] →
      (calculateMemberDiseaseRisk m d ms).riskScore = 0) := by
  constructor
  · intro hpen
    unfold calculateMemberDiseaseRisk
    rw [if_neg (by simp [hnd])]
    simp only [hpen, mul_zero, jsMin_eq_min]
    norm_num
  · intro hprev hres
    unfold calculateMemberDiseaseRisk
    rw [if_neg (by simp [hnd])]
    simp only [hres, List.length_nil, gt_iff_lt, lt_self_iff_false, if_false,
      hprev, jsMin_eq_min]
    norm_num

/-- Witness for the amended C5 at a zero-penetrance disease and at the
zero-prevalence disease on a parentless member. -/
theorem C5_witness :
    hasDisease zpChild
        { zeroPrevDisease with penetrance := 0, prevalence := 1/2 } = false ∧
      (calculateMemberDiseaseRisk zpChild
        { zeroPrevDisease with penetrance := 0, prevalence := 1/2 }
        [zpParent, zpChild]).riskScore = 0 ∧
      (calculateMemberDiseaseRisk zpChild zeroPrevDisease []).riskScore = 0 := by
  refine ⟨by decide, ?_, ?_⟩
  · exact (C5_amended_zero_factors zpChild
      { zeroPrevDisease with penetrance := 0, prevalence := 1/2 }
      [zpParent, zpChild] (by decide)).1 (by decide)
  · exact (C5_amended_zero_factors zpChild zeroPrevDisease [] (by decide)).2
      (by decide) (by decide)

/-! ### Claim C6 -/

theorem setScore_keys {scores : List (String × ℚ)} {k : String} {v : ℚ}
    (h : k ∉ scores.map Prod.fst) :
    (setScore scores k v).map Prod.fst = scores.map Prod.fst ++ [k] := by
  unfold setScore
  rw [if_neg]
  · simp
  · simp only [List.any_eq_true, not_exists, not_and]
    intro p hp
    simp only [beq_iff_eq]
    intro hk
    exact h (hk ▸ List.mem_map_of_mem Prod.fst hp)

theorem mem_setScore {scores : List (String × ℚ)} {k : String} {v : ℚ}
    {p : String × ℚ} (hk : k ∉ scores.map Prod.fst)
    (h : p ∈ setScore scores k v) : p ∈ scores ∨ p = (k, v) := by
  unfold setScore at h
  rw [if_neg] at h
  · rcases List.mem_append.1 h with h | h
    · exact Or.inl h
    · exact Or.inr (List.mem_singleton.1 h)
  · simp only [List.any_eq_true, not_exists, not_and]
    intro q hq
    simp only [beq_iff_eq]
    intro hqk
    exact hk (hqk ▸ List.mem_map_of_mem Prod.fst hq)

theorem parentalRisk_bounds (parents : List FamilyMember) (d : Disease)
    (g : Gender) :
    0 ≤ (calculateParentalRisk parents d g).1 ∧
      (calculateParentalRisk parents d g).1 ≤ 1 := by
  unfold calculateParentalRisk
  cases d.dtype with
  | dominant =>
    simp only [calculateDominantRisk]
    split <;> [skip; split] <;> norm_num
  | recessive =>
    simp only [calculateRecessiveRisk]
    split <;> [skip; split] <;> norm_num
  | xlinked =>
    simp only [calculateXLinkedRisk]
    cases g <;> dsimp only <;> (repeat' split) <;> norm_num
  | multifactorial =>
    simp only [calculateMultifactorialRisk, jsMin_eq_min]
    constructor
    · apply le_min
      · positivity
      · norm_num
    · apply le_trans (min_le_right _ _)
      norm_num

theorem riskScore_bounds (m : FamilyMember) (d : Disease)
    (ms : List FamilyMember) (hprev : 0 ≤ d.prevalence ∧ d.prevalence ≤ 1)
    (hpen : 0 ≤ d.penetrance ∧ d.penetrance ≤ 1) :
    0 ≤ (calculateMemberDiseaseRisk m d ms).riskScore ∧
      (calculateMemberDiseaseRisk m d ms).riskScore ≤ 1 := by
  unfold calculateMemberDiseaseRisk
  by_cases h : hasDisease m d
  · rw [if_pos h]
    norm_num
  · rw [if_neg h]
    simp only [jsMin_eq_min]
    have hbase : 0 ≤ (if (resolveParents m ms).length > 0 then
        (combineRisks d.prevalence
          (calculateParentalRisk (resolveParents m ms) d m.gender).1,
          (calculateParentalRisk (resolveParents m ms) d m.gender).2)
      else (d.prevalence, "population")).1 ∧
        (if (resolveParents m ms).length > 0 then
        (combineRisks d.prevalence
          (calculateParentalRisk (resolveParents m ms) d m.gender).1,
          (calculateParentalRisk (resolveParents m ms) d m.gender).2)
      else (d.prevalence, "population")).1 ≤ 1 := by
      split
      · obtain ⟨hp0, hp1⟩ := parentalRisk_bounds (resolveParents m ms) d m.gender
        unfold combineRisks
        dsimp only
        constructor
        · nlinarith [hprev.1, hprev.2]
        · nlinarith [hprev.1, hprev.2]
      · exact hprev
    constructor
    · apply le_min
      · exact mul_nonneg hbase.1 hpen.1
      · norm_num
    · apply le_trans (min_le_right _ _)
      norm_num

/-- One step of the per-disease fold of `calculateFamilyRisks`. -/
theorem familyFold_invariant (P : ℚ → Prop)
    (hP : ∀ m d ms, (0 ≤ d.prevalence ∧ d.prevalence ≤ 1) →
      (0 ≤ d.penetrance ∧ d.penetrance ≤ 1) →
      P (calculateMemberDiseaseRisk m d ms).riskScore) :
    ∀ (ds : List Disease) (start : List FamilyMember) (rs : List GeneticRisk)
      (ks : List String),
    (∀ d ∈ ds, (0 ≤ d.prevalence ∧ d.prevalence ≤ 1) ∧
      (0 ≤ d.penetrance ∧ d.penetrance ≤ 1)) →
    (∀ m ∈ start, m.riskScores.map Prod.fst = ks) →
    (∀ m ∈ start, ∀ p ∈ m.riskScores, P p.2) →
    (∀ d ∈ ds, d.id ∉ ks) →
    (ds.map Disease.id).Nodup →
    ∀ m' ∈ (ds.foldl (fun acc d =>
        let r := calculateDiseaseRisks acc.1 d
        (r.1, acc.2 ++ r.2)) (start, rs)).1,
      m'.riskScores.map Prod.fst = ks ++ ds.map Disease.id ∧
        ∀ p ∈ m'.riskScores, P p.2 := by
  intro ds
  induction ds with
  | nil =>
    intro start rs ks _ hkeys hvals _ _ m' hm'
    simp only [List.foldl_nil] at hm'
    refine ⟨by simpa using hkeys m' hm', fun p hp => hvals m' hm' p hp⟩
  | cons d ds ih =>
    intro start rs ks hbounds hkeys hvals hfresh hnodup m' hm'
    simp only [List.foldl_cons] at hm'
    have hd := hbounds d (List.mem_cons_self d ds)
    have hnd := List.nodup_cons.1
      (show (d.id :: ds.map Disease.id).Nodup by simpa using hnodup)
    have hstep := ih (calculateDiseaseRisks start d).1
      (rs ++ (calculateDiseaseRisks start d).2) (ks ++ [d.id])
      (fun d' hd' => hbounds d' (List.mem_cons_of_mem d hd'))
      (by
        intro m hm
        unfold calculateDiseaseRisks at hm
        obtain ⟨m0, hm0, rfl⟩ := List.mem_map.1 hm
        simpa [setScore_keys ((hkeys m0 hm0) ▸ hfresh d (List.mem_cons_self d ds))]
          using congrArg (fun l => l ++ [d.id]) (hkeys m0 hm0))
      (by
        intro m hm p hp
        unfold calculateDiseaseRisks at hm
        obtain ⟨m0, hm0, rfl⟩ := List.mem_map.1 hm
        rcases mem_setScore ((hkeys m0 hm0) ▸ hfresh d (List.mem_cons_self d ds))
            hp with h | h
        · exact hvals m0 hm0 p h
        · rw [h]
          exact hP m0 d start hd.1 hd.2)
      (by
        intro d' hd'
        simp only [List.mem_append, List.mem_singleton, not_or]
        refine ⟨hfresh d' (List.mem_cons_of_mem d hd'), ?_⟩
        intro hEq
        exact hnd.1 (hEq ▸ List.mem_map_of_mem Disease.id hd'))
      hnd.2
      m' hm'
    rw [hstep.1]
    refine ⟨?_, hstep.2⟩
    simp

/-- C6: `calculateFamilyRisks` resets every member's `riskScores`, so
afterwards every member carries exactly one entry per catalog disease, in
catalog order, each a probability in [0, 1] — no stale keys survive and
nothing accumulates across diseases or repeated calls.  (Catalog ids are
assumed distinct and prevalence/penetrance within [0, 1], as §3 requires.) -/
theorem C6_riskScores_reset_and_complete (ms : List FamilyMember)
    (ds : List Disease)
    (hnodup : (ds.map Disease.id).Nodup)
    (hbounds : ∀ d ∈ ds, (0 ≤ d.prevalence ∧ d.prevalence ≤ 1) ∧
      (0 ≤ d.penetrance ∧ d.penetrance ≤ 1)) :
    ∀ m' ∈ (calculateFamilyRisks ms ds).1,
      m'.riskScores.map Prod.fst = ds.map Disease.id ∧
        ∀ p ∈ m'.riskScores, 0 ≤ p.2 ∧ p.2 ≤ 1 := by
  intro m' hm'
  unfold calculateFamilyRisks at hm'
  have := familyFold_invariant (fun v => 0 ≤ v ∧ v ≤ 1)
    (fun m d ms hp hq => riskScore_bounds m d ms hp hq)
    ds (ms.map (fun m => { m with riskScores := [] })) [] []
    hbounds
    (by intro m hm; obtain ⟨m0, _, rfl⟩ := List.mem_map.1 hm; rfl)
    (by intro m hm p hp; obtain ⟨m0, _, rfl⟩ := List.mem_map.1 hm; simp at hp)
    (by intro d _; simp)
    hnodup m' hm'
  simpa using this

/-- Witness for C6 on a two-member, two-disease catalog. -/
theorem C6_witness :
    (([testDisease, xDisease].map Disease.id).Nodup ∧
      ∀ d ∈ [testDisease, xDisease],
        (0 ≤ d.prevalence ∧ d.prevalence ≤ 1) ∧
          (0 ≤ d.penetrance ∧ d.penetrance ≤ 1)) ∧
    ∀ m' ∈ (calculateFamilyRisks [testParent, testChild]
        [testDisease, xDisease]).1,
      m'.riskScores.map Prod.fst = [testDisease, xDisease].map Disease.id ∧
        ∀ p ∈ m'.riskScores, 0 ≤ p.2 ∧ p.2 ≤ 1 :=
  ⟨⟨by decide, by decide⟩,
    C6_riskScores_reset_and_complete [testParent, testChild]
      [testDisease, xDisease] (by decide) (by decide)⟩

/-! ### Claim C10 -/

/-- Every run of the BFS loop finishes with some finite fuel, on every input —
the visited-set guard makes the loop terminate even on cyclic or otherwise
malformed pedigrees. -/
theorem bfsFuel_sufficient (ms : List FamilyMember) :
    ∀ (queue : List (FamilyMember × Nat)) (visited : List String)
      (acc : List (FamilyMember × Nat)),
      ∃ n, bfsFuel ms n queue visited acc = some (bfsAux ms queue visited acc) := by
  intro queue visited acc
  induction queue, visited, acc using bfsAux.induct ms with
  | case1 visited acc =>
    exact ⟨0, by rw [bfsAux]; rfl⟩
  | case2 m g rest visited acc hv ih =>
    obtain ⟨n, hn⟩ := ih
    refine ⟨n + 1, ?_⟩
    rw [bfsFuel, if_pos hv, hn, bfsAux, if_pos hv]
  | case3 m g rest visited acc hv ih =>
    obtain ⟨n, hn⟩ := ih
    refine ⟨n + 1, ?_⟩
    rw [bfsFuel, if_neg hv, hn, bfsAux, if_neg hv]

/-- Amended C10: `calculateLayout` (whose BFS is the only loop guarded by a
visited set) terminates on every input, including malformed pedigrees with
parent/child cycles: some finite fuel makes the fuelled mirror of the engine
complete with exactly the total function's value.  (The risk engine and
`calculateBoundingBox` are structurally recursive, hence total by
construction; `optimizeLayout` is the exception recorded in the
counterexample.) -/
theorem C10_amended_layout_terminates (ms : List FamilyMember)
    (config : TreeLayoutConfig) :
    ∃ n, calculateLayoutFuel ms config n = some (calculateLayout ms config) := by
  obtain ⟨n, hn⟩ := bfsFuel_sufficient ms
    ((ms.filter (fun m => m.parentIds.isEmpty)).map (fun m => (m, 0))) [] []
  refine ⟨n, ?_⟩
  unfold calculateLayoutFuel
  rw [hn]
  unfold calculateLayout organizeByGenerations
  rfl

/-- A two-member parent/child cycle: each is the other's parent and child,
both at the default generation 0 (so they share one layout bucket). -/
def cycA : FamilyMember := mkMember "CYA" Gender.male ["CYB"] ["CYB"]

/-- Second member of the cycle. -/
def cycB : FamilyMember := mkMember "CYB" Gender.female ["CYA"] ["CYA"]

/-- The cyclic pedigree. -/
def cyclicFamily : List FamilyMember := [cycA, cycB]

theorem countDesc_cyc_none (n : Nat) :
    countDescendantsFuel cyclicFamily n cycA = none ∧
      countDescendantsFuel cyclicFamily n cycB = none := by
  induction n with
  | zero => exact ⟨rfl, rfl⟩
  | succ n ih =>
    have hB : mapGet cyclicFamily "CYB" = some cycB := by decide
    have hA : mapGet cyclicFamily "CYA" = some cycA := by decide
    constructor
    · rw [countDescendantsFuel]
      show List.foldlM _ _ ["CYB"] = none
      rw [List.foldlM_cons, hB]
      simp [ih.2]
    · rw [countDescendantsFuel]
      show List.foldlM _ _ ["CYA"] = none
      rw [List.foldlM_cons, hA]
      simp [ih.1]

/-- Counterexample to C10 as stated: on a parent/child cycle the
`countDescendants` recursion (which has no visited-set guard) never completes,
for any amount of fuel, and consequently neither does the `optimizeLayout`
entry point, whose sort comparator evaluates descendant counts for the
two-member generation bucket. -/
theorem C10_counterexample :
    (∀ n, countDescendantsFuel cyclicFamily n cycA = none) ∧
      (∀ n, optimizeLayoutFuel cyclicFamily n = none) := by
  refine ⟨fun n => (countDesc_cyc_none n).1, fun n => ?_⟩
  have hkeys : cyclicFamily.foldl
      (fun acc m => if m.generation ∈ acc then acc else acc ++ [m.generation]) []
      = [0] := by decide
  have hbucket : [0].map
      (fun g => cyclicFamily.filter (fun m => m.generation == g))
      = [[cycA, cycB]] := by decide
  have hcond : ([[cycA, cycB]].all (fun b =>
      decide (b.length ≤ 1) || b.all (fun m =>
        (countDescendantsFuel cyclicFamily n m).isSome))) = false := by
    simp [(countDesc_cyc_none n).1]
  unfold optimizeLayoutFuel
  simp only [hkeys, hbucket, hcond]
  rfl

/-! ### Machinery for claims C9, C7, C8: the layout engine reads only
`id` / `parentIds` / `childrenIds` of each member. -/

/-- Agreement on the member fields the layout engine reads. -/
def layoutRel (a b : FamilyMember) : Prop :=
  a.id = b.id ∧ a.parentIds = b.parentIds ∧ a.childrenIds = b.childrenIds

/-- Agreement of queue / visit-log entries. -/
def queueRel (x y : FamilyMember × Nat) : Prop :=
  layoutRel x.1 y.1 ∧ x.2 = y.2

theorem layoutRel_refl (a : FamilyMember) : layoutRel a a := ⟨rfl, rfl, rfl⟩

/-- `find?` over pointwise-related lists with a predicate that only reads
related fields returns related results. -/
theorem find?_rel {α : Type} {r : α → α → Prop}
    {p : α → Bool} (hp : ∀ a b, r a b → p a = p b) :
    ∀ {l l' : List α}, List.Forall₂ r l l' →
      (l.find? p = none ∧ l'.find? p = none) ∨
        (∃ a b, r a b ∧ l.find? p = some a ∧ l'.find? p = some b) := by
  intro l l' h
  induction h with
  | nil => exact Or.inl ⟨rfl, rfl⟩
  | @cons a b l₁ l₂ hab htl ih =>
    by_cases hpa : p a
    · exact Or.inr ⟨a, b, hab, List.find?_cons_of_pos _ hpa,
        List.find?_cons_of_pos _ ((hp a b hab) ▸ hpa)⟩
    · rw [List.find?_cons_of_neg _ hpa,
        List.find?_cons_of_neg _ (by rw [← hp a b hab]; exact hpa)]
      exact ih

theorem mapGet_rel {ms ms' : List FamilyMember}
    (h : List.Forall₂ layoutRel ms ms') (i : String) :
    (mapGet ms i = none ∧ mapGet ms' i = none) ∨
      (∃ a b, layoutRel a b ∧ mapGet ms i = some a ∧ mapGet ms' i = some b) := by
  unfold mapGet
  exact find?_rel (fun a b hab => by rw [hab.1]) (List.forall₂_reverse_iff.2 h)

theorem freshChildren_rel {ms ms' : List FamilyMember}
    (hms : List.Forall₂ layoutRel ms ms') (visited : List String)
    {m m' : FamilyMember} (hm : layoutRel m m') :
    List.Forall₂ layoutRel (freshChildren ms visited m)
      (freshChildren ms' visited m') := by
  unfold freshChildren
  rw [← hm.2.2]
  induction m.childrenIds with
  | nil => exact List.Forall₂.nil
  | cons c cs ih =>
    rw [List.filterMap_cons, List.filterMap_cons]
    rcases mapGet_rel hms c with ⟨h1, h2⟩ | ⟨a, b, hab, h1, h2⟩
    · rw [h1, h2]
      exact ih
    · rw [h1, h2]
      by_cases hv : c ∈ visited
      · simp only [Option.bind_some, if_pos hv]
        exact ih
      · simp only [Option.bind_some, if_neg hv]
        exact List.Forall₂.cons hab ih

/-- The BFS visit logs of two structurally equal member lists agree entry by
entry (same ids, parent/child lists and generations). -/
theorem bfsAux_rel {ms ms' : List FamilyMember}
    (hms : List.Forall₂ layoutRel ms ms') :
    ∀ (queue : List (FamilyMember × Nat)) (visited : List String)
      (acc : List (FamilyMember × Nat)),
      ∀ (queue' acc' : List (FamilyMember × Nat)),
        List.Forall₂ queueRel queue queue' →
        List.Forall₂ queueRel acc acc' →
        List.Forall₂ queueRel (bfsAux ms queue visited acc)
          (bfsAux ms' queue' visited acc') := by
  intro queue visited acc
  induction queue, visited, acc using bfsAux.induct ms with
  | case1 visited acc =>
    intro queue' acc' hq hacc
    cases hq
    rw [bfsAux, bfsAux]
    exact hacc
  | case2 visited acc m g rest hv ih =>
    intro queue' acc' hq hacc
    cases hq with
    | @cons _ e' _ rest' he hrest =>
      obtain ⟨m', g'⟩ := e'
      rw [bfsAux, if_pos hv, bfsAux, if_pos (he.1.1 ▸ hv)]
      exact ih rest' acc' hrest hacc
  | case3 visited acc m g rest hv ih =>
    intro queue' acc' hq hacc
    cases hq with
    | @cons _ e' _ rest' he hrest =>
      obtain ⟨m', g'⟩ := e'
      have hid : m.id = m'.id := he.1.1
      have hg : g = g' := he.2
      rw [bfsAux, if_neg hv, bfsAux, if_neg (hid ▸ hv)]
      rw [← hid]
      apply ih (rest' ++ (freshChildren ms' visited m').map (fun c => (c, g' + 1)))
        (acc' ++ [(m', g')])
      · apply List.rel_append hrest
        rw [hg]
        exact List.rel_map (@fun a b hab => ⟨hab, rfl⟩)
          (freshChildren_rel hms visited he.1)
      · exact List.rel_append hacc (List.Forall₂.cons ⟨he.1, hg⟩ List.Forall₂.nil)

theorem organizeByGenerations_rel {ms ms' : List FamilyMember}
    (hms : List.Forall₂ layoutRel ms ms') :
    List.Forall₂ queueRel (organizeByGenerations ms)
      (organizeByGenerations ms') := by
  unfold organizeByGenerations
  apply bfsAux_rel hms _ _ _ _ _ _ List.Forall₂.nil
  have hr : List.Forall₂ layoutRel (ms.filter (fun m => m.parentIds.isEmpty))
      (ms'.filter (fun m => m.parentIds.isEmpty)) := by
    clear * - hms
    induction hms with
    | nil => exact List.Forall₂.nil
    | @cons a b l₁ l₂ hab htl ih =>
      rw [List.filter_cons, List.filter_cons]
      have : (a.parentIds.isEmpty : Bool) = b.parentIds.isEmpty := by rw [hab.2.1]
      by_cases hpa : (a.parentIds.isEmpty : Bool)
      · rw [if_pos (by exact hpa), if_pos (by rw [← this]; exact hpa)]
        exact List.Forall₂.cons hab ih
      · rw [if_neg (by exact hpa), if_neg (by rw [← this]; exact hpa)]
        exact ih
  exact List.rel_map (@fun a b hab => ⟨hab, rfl⟩) hr

/-! ### Position updates as first-class data -/

/-- All fields except `position` agree. -/
def eqUpToPosition (a b : FamilyMember) : Prop :=
  b = { a with position := b.position }

theorem eqUpToPosition_refl (a : FamilyMember) : eqUpToPosition a a := by
  cases a; rfl

theorem eqUpToPosition_trans {a b c : FamilyMember} (h1 : eqUpToPosition a b)
    (h2 : eqUpToPosition b c) : eqUpToPosition a c := by
  unfold eqUpToPosition at *
  rw [h2, h1]

/-- Sequential application of (id, position) updates, each through the
source's find-first-then-mutate assignment. -/
def applyUpdates (U : List (String × Position3D)) (all : List FamilyMember) :
    List FamilyMember :=
  U.foldl (fun cur u => setPosById cur u.1 u.2) all

theorem applyUpdates_nil (all : List FamilyMember) : applyUpdates [] all = all := rfl

theorem applyUpdates_cons (u : String × Position3D) (U : List (String × Position3D))
    (all : List FamilyMember) :
    applyUpdates (u :: U) all = applyUpdates U (setPosById all u.1 u.2) := rfl

theorem applyUpdates_append (U₁ U₂ : List (String × Position3D))
    (all : List FamilyMember) :
    applyUpdates (U₁ ++ U₂) all = applyUpdates U₂ (applyUpdates U₁ all) :=
  List.foldl_append ..

theorem setPosById_eqUpToPosition (L : List FamilyMember) (i : String)
    (p : Position3D) : List.Forall₂ eqUpToPosition L (setPosById L i p) := by
  induction L with
  | nil => exact List.Forall₂.nil
  | cons m rest ih =>
    rw [setPosById]
    split
    · exact List.Forall₂.cons rfl (List.forall₂_same.2 (fun x _ => eqUpToPosition_refl x))
    · exact List.Forall₂.cons (eqUpToPosition_refl m) ih

theorem forall₂_eqUpToPosition_trans :
    ∀ {l₁ l₂ l₃ : List FamilyMember}, List.Forall₂ eqUpToPosition l₁ l₂ →
      List.Forall₂ eqUpToPosition l₂ l₃ → List.Forall₂ eqUpToPosition l₁ l₃ := by
  intro l₁ l₂ l₃ h1
  induction h1 generalizing l₃ with
  | nil => intro h2; cases h2; exact List.Forall₂.nil
  | @cons a b t₁ t₂ hab htl ih =>
    intro h2
    cases h2 with
    | cons hbc htl2 => exact List.Forall₂.cons (eqUpToPosition_trans hab hbc) (ih htl2)

theorem applyUpdates_eqUpToPosition (U : List (String × Position3D)) :
    ∀ (L : List FamilyMember), List.Forall₂ eqUpToPosition L (applyUpdates U L) := by
  induction U with
  | nil => exact fun L => List.forall₂_same.2 (fun x _ => eqUpToPosition_refl x)
  | cons u U ih =>
    intro L
    rw [applyUpdates_cons]
    exact forall₂_eqUpToPosition_trans (setPosById_eqUpToPosition L u.1 u.2)
      (ih (setPosById L u.1 u.2))

/-- `setPosById` with a different id does not disturb the first member found
for the original id. -/
theorem setPosById_find?_other {i j : String} (hij : j ≠ i) (q : Position3D) :
    ∀ (L : List FamilyMember),
      (setPosById L j q).find? (fun m => m.id == i) =
        L.find? (fun m => m.id == i) := by
  intro L
  induction L with
  | nil => rfl
  | cons m rest ih =>
    rw [setPosById]
    by_cases hj : m.id == j
    · rw [if_pos hj]
      have hmi : (m.id == i) = false := by
        have hmj : m.id = j := by simpa using hj
        rw [hmj]
        exact beq_eq_false_iff_ne.2 hij
      rw [List.find?_cons, List.find?_cons]
      simp only [hmi]
    · rw [if_neg hj]
      rw [List.find?_cons, List.find?_cons]
      cases hi : m.id == i with
      | true => rfl
      | false => exact ih

/-- `setPosById` rewrites the position of exactly the first member with the
given id, as observed through `find?`. -/
theorem setPosById_find?_self (i : String) (p : Position3D) :
    ∀ (L : List FamilyMember),
      (setPosById L i p).find? (fun m => m.id == i) =
        (L.find? (fun m => m.id == i)).map (fun m => { m with position := p }) := by
  intro L
  induction L with
  | nil => rfl
  | cons m rest ih =>
    rw [setPosById]
    by_cases hi : m.id == i
    · rw [if_pos hi, List.find?_cons, List.find?_cons]
      simp only [show (({ m with position := p } : FamilyMember).id == i) = true from hi, hi]
      rfl
    · rw [if_neg hi, List.find?_cons, List.find?_cons]
      simp only [Bool.eq_false_iff.2 hi]
      exact ih

theorem applyUpdates_find?_of_not_mem {U : List (String × Position3D)}
    {i : String} (h : ∀ u ∈ U, u.1 ≠ i) :
    ∀ (L : List FamilyMember),
      (applyUpdates U L).find? (fun m => m.id == i) =
        L.find? (fun m => m.id == i) := by
  induction U with
  | nil => exact fun L => rfl
  | cons u U ih =>
    intro L
    rw [applyUpdates_cons,
      ih (fun v hv => h v (List.mem_cons_of_mem u hv)) (setPosById L u.1 u.2),
      setPosById_find?_other (h u (List.mem_cons_self u U)) u.2]

/-- Setting a position that the first matching member already has (or setting
at an absent id) is a no-op. -/
theorem setPosById_noop {i : String} {p : Position3D} :
    ∀ {L : List FamilyMember},
      ((L.find? (fun m => m.id == i) = none) ∨
        (∃ m₀, L.find? (fun m => m.id == i) = some m₀ ∧ m₀.position = p)) →
      setPosById L i p = L := by
  intro L
  induction L with
  | nil => exact fun _ => rfl
  | cons m rest ih =>
    intro h
    rw [setPosById]
    by_cases hi : m.id == i
    · rw [if_pos hi]
      rw [List.find?_cons] at h
      simp only [hi] at h
      rcases h with h | ⟨m₀, hm₀, hp⟩
      · exact absurd h (by simp)
      · have hm : m = m₀ := by injection hm₀
        rw [hm, ← hp]
    · rw [if_neg hi]
      rw [List.find?_cons] at h
      simp only [Bool.eq_false_iff.2 hi] at h
      rw [ih h]

/-- Re-applying an update sequence with distinct target ids is a no-op: the
core idempotence fact for the positioning pass. -/
theorem applyUpdates_idem_of_nodup :
    ∀ (U V : List (String × Position3D)) (L : List FamilyMember),
      ((V ++ U).map Prod.fst).Nodup →
      applyUpdates U (applyUpdates (V ++ U) L) = applyUpdates (V ++ U) L := by
  intro U
  induction U with
  | nil => intro V L _; rfl
  | cons u U ih =>
    intro V L hnd
    have hUfresh : ∀ v ∈ U, v.1 ≠ u.1 := by
      intro v hv hEq
      rw [List.map_append, List.map_cons] at hnd
      have h2 := (List.nodup_append.1 hnd).2.1
      have h3 := List.nodup_cons.1 h2
      exact h3.1 (hEq ▸ List.mem_map_of_mem Prod.fst hv)
    have hkey : setPosById (applyUpdates (V ++ u :: U) L) u.1 u.2 =
        applyUpdates (V ++ u :: U) L := by
      apply setPosById_noop
      have hexp : applyUpdates (V ++ u :: U) L =
          applyUpdates U (setPosById (applyUpdates V L) u.1 u.2) := by
        rw [applyUpdates_append, applyUpdates_cons]
      rw [hexp, applyUpdates_find?_of_not_mem hUfresh, setPosById_find?_self]
      cases hfind : (applyUpdates V L).find? (fun m => m.id == u.1) with
      | none => exact Or.inl rfl
      | some m₀ => exact Or.inr ⟨{ m₀ with position := u.2 }, rfl, rfl⟩
    rw [applyUpdates_cons, hkey]
    have hsplit : V ++ u :: U = (V ++ [u]) ++ U := by simp
    rw [hsplit] at hnd ⊢
    exact ih (V ++ [u]) L hnd

/-- The (id, position) pairs written for one sibling group. -/
def sibUpdates (siblings : List FamilyMember) (startX sibSpacing y : ℚ) :
    List (String × Position3D) :=
  siblings.enum.map (fun p =>
    (p.2.id,
      { x := startX + p.1 * sibSpacing, y := y, z := calculateZPosition p.2 }))

theorem placeSiblings_eq (siblings : List FamilyMember) (startX sibSpacing y : ℚ)
    (all : List FamilyMember) :
    placeSiblings siblings startX sibSpacing y all =
      applyUpdates (sibUpdates siblings startX sibSpacing y) all := by
  unfold placeSiblings sibUpdates applyUpdates
  rw [List.foldl_map]

/-- The (id, position) pairs written for one whole generation. -/
def groupUpdates (config : TreeLayoutConfig) (y : ℚ) :
    List (List FamilyMember) → ℚ → List (String × Position3D)
  | [], _ => []
  | siblings :: rest, currentX =>
    let groupWidth := ((siblings.length : ℚ) - 1) * config.siblingSpacing
    let startX := currentX - groupWidth / 2
    sibUpdates siblings startX config.siblingSpacing y ++
      groupUpdates config y rest (currentX + groupWidth + config.branchSpacing)

theorem positionGroups_eq (config : TreeLayoutConfig) (y : ℚ) :
    ∀ (groups : List (List FamilyMember)) (currentX : ℚ)
      (all : List FamilyMember),
      positionGroups config y groups currentX all =
        applyUpdates (groupUpdates config y groups currentX) all := by
  intro groups
  induction groups with
  | nil => intro currentX all; rfl
  | cons siblings rest ih =>
    intro currentX all
    rw [positionGroups, groupUpdates]
    rw [applyUpdates_append, ← placeSiblings_eq, ih]

/-- The update list of the entire positioning pass. -/
def layoutUpdates (config : TreeLayoutConfig)
    (visits : List (FamilyMember × Nat)) : List (String × Position3D) :=
  (genKeys visits).flatMap (fun g =>
    groupUpdates config (-(g : ℚ) * config.generationSpacing)
      (groupSiblings (genBucket visits g)) 0)

theorem foldl_positionGeneration_eq (config : TreeLayoutConfig)
    (visits : List (FamilyMember × Nat)) :
    ∀ (ks : List Nat) (base : List FamilyMember),
      ks.foldl (fun all g => positionGeneration (genBucket visits g) g config all)
          base =
        applyUpdates (ks.flatMap (fun g =>
          groupUpdates config (-(g : ℚ) * config.generationSpacing)
            (groupSiblings (genBucket visits g)) 0)) base := by
  intro ks
  induction ks with
  | nil => intro base; rfl
  | cons k ks ih =>
    intro base
    rw [List.foldl_cons, List.flatMap_cons, applyUpdates_append, ih]
    unfold positionGeneration
    rw [positionGroups_eq]

/-- `calculateLayout` is the generation assignment followed by one flat list
of position writes. -/
theorem calculateLayout_eq (ms : List FamilyMember) (config : TreeLayoutConfig) :
    calculateLayout ms config =
      applyUpdates (layoutUpdates config (organizeByGenerations ms))
        (applyGenerations (organizeByGenerations ms) ms) := by
  unfold calculateLayout layoutUpdates
  rw [foldl_positionGeneration_eq]

/-! ### The update list depends only on the layout-relevant projections -/

theorem genKeys_congr {visits visits' : List (FamilyMember × Nat)}
    (h : List.Forall₂ queueRel visits visits') : genKeys visits = genKeys visits' := by
  unfold genKeys
  suffices hgen : ∀ acc, visits.foldl
      (fun acc v => if v.2 ∈ acc then acc else acc ++ [v.2]) acc =
      visits'.foldl (fun acc v => if v.2 ∈ acc then acc else acc ++ [v.2]) acc from
    hgen []
  induction h with
  | nil => intro acc; rfl
  | @cons a b l₁ l₂ hab htl ih =>
    intro acc
    rw [List.foldl_cons, List.foldl_cons, hab.2]
    exact ih _

theorem genBucket_congr {visits visits' : List (FamilyMember × Nat)}
    (h : List.Forall₂ queueRel visits visits') (g : Nat) :
    List.Forall₂ layoutRel (genBucket visits g) (genBucket visits' g) := by
  unfold genBucket
  induction h with
  | nil => exact List.Forall₂.nil
  | @cons a b l₁ l₂ hab htl ih =>
    rw [List.filter_cons, List.filter_cons, hab.2]
    by_cases hg : (b.2 == g)
    · rw [if_pos hg, if_pos hg, List.map_cons, List.map_cons]
      exact List.Forall₂.cons hab.1 ih
    · rw [if_neg hg, if_neg hg]
      exact ih

theorem haveSameParents_congr {a a' b b' : FamilyMember} (ha : layoutRel a a')
    (hb : layoutRel b b') : haveSameParents a b = haveSameParents a' b' := by
  unfold haveSameParents
  rw [ha.2.1, hb.2.1]

theorem findSiblings_congr {m m' : FamilyMember} (hm : layoutRel m m')
    {bucket bucket' : List FamilyMember}
    (hb : List.Forall₂ layoutRel bucket bucket') :
    List.Forall₂ layoutRel (findSiblings m bucket) (findSiblings m' bucket') := by
  unfold findSiblings
  rw [← hm.2.1]
  by_cases hp : m.parentIds.isEmpty
  · rw [if_pos hp, if_pos hp]
    exact List.Forall₂.cons hm List.Forall₂.nil
  · rw [if_neg hp, if_neg hp]
    induction hb with
    | nil => exact List.Forall₂.nil
    | @cons a b l₁ l₂ hab htl ih =>
      rw [List.filter_cons, List.filter_cons,
        show haveSameParents m a = haveSameParents m' b from
          haveSameParents_congr hm hab]
      by_cases hs : haveSameParents m' b
      · rw [if_pos hs, if_pos hs]
        exact List.Forall₂.cons hab ih
      · rw [if_neg hs, if_neg hs]
        exact ih

theorem forall₂_map_id {l l' : List FamilyMember}
    (h : List.Forall₂ layoutRel l l') :
    l.map FamilyMember.id = l'.map FamilyMember.id := by
  induction h with
  | nil => rfl
  | cons hab _ ih => rw [List.map_cons, List.map_cons, hab.1, ih]

theorem groupSiblingsAux_congr {bucket bucket' : List FamilyMember}
    (hb : List.Forall₂ layoutRel bucket bucket') :
    ∀ {rem rem' : List FamilyMember}, List.Forall₂ layoutRel rem rem' →
      ∀ (processed : List String) {groups groups' : List (List FamilyMember)},
        List.Forall₂ (List.Forall₂ layoutRel) groups groups' →
        List.Forall₂ (List.Forall₂ layoutRel)
          (groupSiblingsAux bucket rem processed groups)
          (groupSiblingsAux bucket' rem' processed groups') := by
  intro rem rem' hrem
  induction hrem with
  | nil => intro processed groups groups' hg; exact hg
  | @cons m m' t t' hm htl ih =>
    intro processed groups groups' hg
    rw [groupSiblingsAux, groupSiblingsAux, ← hm.1]
    by_cases hpr : m.id ∈ processed
    · rw [if_pos hpr, if_pos hpr]
      exact ih processed hg
    · rw [if_neg hpr, if_neg hpr]
      have hsib := findSiblings_congr hm hb
      show List.Forall₂ (List.Forall₂ layoutRel)
        (groupSiblingsAux bucket t
          (processed ++ (findSiblings m bucket).map FamilyMember.id)
          (groups ++ [findSiblings m bucket]))
        (groupSiblingsAux bucket' t'
          (processed ++ (findSiblings m' bucket').map FamilyMember.id)
          (groups' ++ [findSiblings m' bucket']))
      rw [← forall₂_map_id hsib]
      exact ih _ (List.rel_append hg (List.Forall₂.cons hsib List.Forall₂.nil))

theorem groupSiblings_congr {bucket bucket' : List FamilyMember}
    (hb : List.Forall₂ layoutRel bucket bucket') :
    List.Forall₂ (List.Forall₂ layoutRel) (groupSiblings bucket)
      (groupSiblings bucket') :=
  groupSiblingsAux_congr hb hb [] List.Forall₂.nil

theorem calculateZPosition_congr {a b : FamilyMember} (h : layoutRel a b) :
    calculateZPosition a = calculateZPosition b := by
  unfold calculateZPosition
  rw [h.1]

theorem enumFrom_map_congr {β : Type} {f : Nat × FamilyMember → β}
    (hf : ∀ (i : Nat) (a b : FamilyMember), layoutRel a b → f (i, a) = f (i, b)) :
    ∀ {l l' : List FamilyMember}, List.Forall₂ layoutRel l l' →
      ∀ (n : Nat), (List.enumFrom n l).map f = (List.enumFrom n l').map f := by
  intro l l' h
  induction h with
  | nil => intro n; rfl
  | @cons a b t t' hab htl ih =>
    intro n
    simp only [List.enumFrom, List.map_cons]
    rw [hf n a b hab, ih]

theorem sibUpdates_congr {sibs sibs' : List FamilyMember}
    (h : List.Forall₂ layoutRel sibs sibs') (startX sibSpacing y : ℚ) :
    sibUpdates sibs startX sibSpacing y = sibUpdates sibs' startX sibSpacing y := by
  unfold sibUpdates
  exact enumFrom_map_congr
    (fun i a b hab => by rw [hab.1, calculateZPosition_congr hab]) h 0

theorem groupUpdates_congr (config : TreeLayoutConfig) (y : ℚ) :
    ∀ {groups groups' : List (List FamilyMember)},
      List.Forall₂ (List.Forall₂ layoutRel) groups groups' →
      ∀ (currentX : ℚ),
        groupUpdates config y groups currentX =
          groupUpdates config y groups' currentX := by
  intro groups groups' hg
  induction hg with
  | nil => intro currentX; rfl
  | @cons G G' t t' hG htl ih =>
    intro currentX
    rw [groupUpdates, groupUpdates, hG.length_eq, sibUpdates_congr hG, ih]

/-- The full update list is determined by the layout-relevant projection of
the visit log. -/
theorem layoutUpdates_congr {visits visits' : List (FamilyMember × Nat)}
    (h : List.Forall₂ queueRel visits visits') (config : TreeLayoutConfig) :
    layoutUpdates config visits = layoutUpdates config visits' := by
  unfold layoutUpdates
  rw [genKeys_congr h]
  suffices hgen : ∀ (ks : List Nat),
      ks.flatMap (fun g => groupUpdates config (-(g : ℚ) * config.generationSpacing)
        (groupSiblings (genBucket visits g)) 0) =
      ks.flatMap (fun g => groupUpdates config (-(g : ℚ) * config.generationSpacing)
        (groupSiblings (genBucket visits' g)) 0) from hgen _
  intro ks
  induction ks with
  | nil => rfl
  | cons k ks ih =>
    rw [List.flatMap_cons, List.flatMap_cons, ih,
      groupUpdates_congr config _ (groupSiblings_congr (genBucket_congr h k)) 0]

/-! ### Distinctness of the visit log and of the position writes -/

theorem bfsAux_acc_extend (ms : List FamilyMember) :
    ∀ (queue : List (FamilyMember × Nat)) (visited : List String)
      (acc : List (FamilyMember × Nat)),
      ∃ tail, bfsAux ms queue visited acc = acc ++ tail := by
  intro queue visited acc
  induction queue, visited, acc using bfsAux.induct ms with
  | case1 visited acc => exact ⟨[], by rw [bfsAux]; simp⟩
  | case2 visited acc m g rest hv ih =>
    obtain ⟨tail, htail⟩ := ih
    exact ⟨tail, by rw [bfsAux, if_pos hv]; exact htail⟩
  | case3 visited acc m g rest hv ih =>
    obtain ⟨tail, htail⟩ := ih
    refine ⟨(m, g) :: tail, ?_⟩
    rw [bfsAux, if_neg hv, htail]
    simp

/-- Ids in the BFS visit log are pairwise distinct (the visited-set guard). -/
theorem bfsAux_ids_nodup (ms : List FamilyMember) :
    ∀ (queue : List (FamilyMember × Nat)) (visited : List String)
      (acc : List (FamilyMember × Nat)),
      (acc.map (fun v => v.1.id)).Nodup →
      (∀ v ∈ acc, v.1.id ∈ visited) →
      ((bfsAux ms queue visited acc).map (fun v => v.1.id)).Nodup ∧
        ∃ visited₂, visited ⊆ visited₂ ∧
          ∀ v ∈ bfsAux ms queue visited acc, v.1.id ∈ visited₂ := by
  intro queue visited acc
  induction queue, visited, acc using bfsAux.induct ms with
  | case1 visited acc =>
    intro hnd hsub
    rw [bfsAux]
    exact ⟨hnd, visited, fun _ h => h, hsub⟩
  | case2 visited acc m g rest hv ih =>
    intro hnd hsub
    rw [bfsAux, if_pos hv]
    exact ih hnd hsub
  | case3 visited acc m g rest hv ih =>
    intro hnd hsub
    rw [bfsAux, if_neg hv]
    have hnd' : ((acc ++ [(m, g)]).map (fun v => v.1.id)).Nodup := by
      rw [List.map_append]
      apply List.Nodup.append hnd (by simp)
      intro i hi hi2
      simp only [List.map_cons, List.map_nil, List.mem_singleton] at hi2
      obtain ⟨v, hvmem, hvid⟩ := List.mem_map.1 hi
      exact hv (hi2 ▸ hvid ▸ hsub v hvmem)
    have hsub' : ∀ v ∈ acc ++ [(m, g)], v.1.id ∈ m.id :: visited := by
      intro v hvm
      rcases List.mem_append.1 hvm with h | h
      · exact List.mem_cons_of_mem _ (hsub v h)
      · simp only [List.mem_singleton] at h
        rw [h]
        exact List.mem_cons_self _ _
    obtain ⟨hnd2, visited₂, hsub2, hall⟩ := ih hnd' hsub'
    exact ⟨hnd2, visited₂, fun i hi => hsub2 (List.mem_cons_of_mem _ hi), hall⟩

theorem organizeByGenerations_ids_nodup (ms : List FamilyMember) :
    ((organizeByGenerations ms).map (fun v => v.1.id)).Nodup :=
  (bfsAux_ids_nodup ms _ [] [] (by simp) (by simp)).1

/-! ### `haveSameParents` is an equivalence -/

theorem haveSameParents_iff {a b : FamilyMember} :
    haveSameParents a b = true ↔
      a.parentIds.length = b.parentIds.length ∧
        a.parentIds.toFinset = b.parentIds.toFinset := by
  unfold haveSameParents
  constructor
  · intro h
    split at h
    · exact absurd h (by simp)
    · rename_i hlen
      simp only [Bool.and_eq_true, beq_iff_eq, List.all_eq_true] at h
      obtain ⟨hdlen, hsub⟩ := h
      have hss : a.parentIds.toFinset ⊆ b.parentIds.toFinset := by
        intro x hx
        rw [List.mem_toFinset] at hx ⊢
        have := hsub x (by rw [List.mem_dedup]; exact hx)
        simpa using this
      refine ⟨by omega, Finset.eq_of_subset_of_card_le hss ?_⟩
      rw [List.card_toFinset, List.card_toFinset, hdlen]
  · intro ⟨hlen, hset⟩
    rw [if_neg (by omega)]
    simp only [Bool.and_eq_true, beq_iff_eq, List.all_eq_true]
    constructor
    · rw [← List.card_toFinset, ← List.card_toFinset, hset]
    · intro x hx
      rw [List.mem_dedup] at hx
      have : x ∈ b.parentIds.toFinset := hset ▸ List.mem_toFinset.2 hx
      simpa using List.mem_toFinset.1 this

theorem haveSameParents_refl (a : FamilyMember) : haveSameParents a a = true :=
  haveSameParents_iff.2 ⟨rfl, rfl⟩

theorem haveSameParents_symm {a b : FamilyMember}
    (h : haveSameParents a b = true) : haveSameParents b a = true :=
  haveSameParents_iff.2 ⟨(haveSameParents_iff.1 h).1.symm,
    (haveSameParents_iff.1 h).2.symm⟩

theorem haveSameParents_trans {a b c : FamilyMember}
    (h1 : haveSameParents a b = true) (h2 : haveSameParents b c = true) :
    haveSameParents a c = true :=
  haveSameParents_iff.2 ⟨(haveSameParents_iff.1 h1).1.trans
      (haveSameParents_iff.1 h2).1,
    (haveSameParents_iff.1 h1).2.trans (haveSameParents_iff.1 h2).2⟩

theorem haveSameParents_nonempty {a b : FamilyMember}
    (h : haveSameParents a b = true) (ha : a.parentIds ≠ []) :
    b.parentIds ≠ [] := by
  have hlen := (haveSameParents_iff.1 h).1
  intro hb
  rw [hb] at hlen
  exact ha (List.length_eq_zero.1 (by simpa using hlen))

/-! ### The sibling groups of one generation partition its members -/

/-- Ids covered by a list of sibling groups. -/
def gIds (groups : List (List FamilyMember)) : List String :=
  groups.flatMap (fun G => G.map FamilyMember.id)

theorem gIds_append (g1 g2 : List (List FamilyMember)) :
    gIds (g1 ++ g2) = gIds g1 ++ gIds g2 := by
  unfold gIds
  rw [List.flatMap_append]

theorem groupSiblingsAux_skip {bucket m rem processed groups}
    (h : m.id ∈ processed) :
    groupSiblingsAux bucket (m :: rem) processed groups =
      groupSiblingsAux bucket rem processed groups := by
  rw [groupSiblingsAux, if_pos h]

theorem groupSiblingsAux_emit {bucket m rem processed groups}
    (h : m.id ∉ processed) :
    groupSiblingsAux bucket (m :: rem) processed groups =
      groupSiblingsAux bucket rem
        (processed ++ (findSiblings m bucket).map FamilyMember.id)
        (groups ++ [findSiblings m bucket]) := by
  rw [groupSiblingsAux, if_neg h]

theorem groupSiblingsAux_mono (bucket : List FamilyMember) :
    ∀ (rem : List FamilyMember) (processed : List String)
      (groups : List (List FamilyMember)),
      ∃ tail, groupSiblingsAux bucket rem processed groups = groups ++ tail := by
  intro rem
  induction rem with
  | nil => exact fun processed groups => ⟨[], by rw [groupSiblingsAux]; simp⟩
  | cons m rest ih =>
    intro processed groups
    by_cases hpr : m.id ∈ processed
    · obtain ⟨tail, htail⟩ := ih processed groups
      exact ⟨tail, by rw [groupSiblingsAux_skip hpr]; exact htail⟩
    · obtain ⟨tail, htail⟩ := ih
        (processed ++ (findSiblings m bucket).map FamilyMember.id)
        (groups ++ [findSiblings m bucket])
      refine ⟨findSiblings m bucket :: tail, ?_⟩
      rw [groupSiblingsAux_emit hpr, htail]
      simp

theorem mem_of_id_mem {bucket : List FamilyMember}
    (hbnd : (bucket.map FamilyMember.id).Nodup) {x x' : FamilyMember}
    (hx : x ∈ bucket) (hx' : x' ∈ bucket) (hid : x'.id = x.id) : x' = x :=
  List.inj_on_of_nodup_map hbnd hx' hx hid

/-- Behaviour of the `groupSiblings` worker loop: the emitted groups have
pairwise-distinct member ids, every group is either a parentless singleton or
the full `haveSameParents` class of some member, and every remaining member
ends up covered. -/
theorem groupSiblingsAux_spec (bucket : List FamilyMember)
    (hbnd : (bucket.map FamilyMember.id).Nodup) :
    ∀ (rem : List FamilyMember) (processed : List String)
      (groups : List (List FamilyMember)),
      (∀ x ∈ rem, x ∈ bucket) →
      (∀ G ∈ groups, ∀ x ∈ G, x ∈ bucket ∧ x.id ∈ processed) →
      (gIds groups).Nodup →
      (∀ x ∈ bucket, x.id ∈ processed → x.parentIds ≠ [] →
        ∀ y ∈ bucket, haveSameParents x y = true → y.id ∈ processed) →
      (gIds (groupSiblingsAux bucket rem processed groups)).Nodup ∧
      (∀ G ∈ groupSiblingsAux bucket rem processed groups,
        G ∈ groups ∨ ∃ m₀ ∈ bucket,
          (m₀.parentIds = [] ∧ G = [m₀]) ∨
          (m₀.parentIds ≠ [] ∧
            G = bucket.filter (fun other => haveSameParents m₀ other))) ∧
      (∀ x ∈ rem, x.id ∈ processed ∨
        ∃ G ∈ groupSiblingsAux bucket rem processed groups, x ∈ G) := by
  intro rem
  induction rem with
  | nil =>
    intro processed groups _ _ hI2 _
    rw [groupSiblingsAux]
    exact ⟨hI2, fun G hG => Or.inl hG, by simp⟩
  | cons m rest ih =>
    intro processed groups hrem hI1 hI2 hI3
    by_cases hpr : m.id ∈ processed
    · rw [groupSiblingsAux_skip hpr]
      obtain ⟨c1, c2, c3⟩ := ih processed groups
        (fun x hx => hrem x (List.mem_cons_of_mem _ hx)) hI1 hI2 hI3
      refine ⟨c1, c2, ?_⟩
      intro x hx
      rcases List.mem_cons.1 hx with rfl | hx'
      · exact Or.inl hpr
      · exact c3 x hx'
    · rw [groupSiblingsAux_emit hpr]
      have hmB : m ∈ bucket := hrem m (List.mem_cons_self _ _)
      have hS1 : ∀ x ∈ findSiblings m bucket, x ∈ bucket := by
        intro x hx
        unfold findSiblings at hx
        split at hx
        · rw [List.mem_singleton] at hx
          exact hx ▸ hmB
        · exact (List.mem_filter.1 hx).1
      have hS2 : m ∈ findSiblings m bucket := by
        unfold findSiblings
        split
        · exact List.mem_singleton.2 rfl
        · exact List.mem_filter.2 ⟨hmB, haveSameParents_refl m⟩
      have hS2' : ∀ x ∈ findSiblings m bucket, ¬ m.parentIds.isEmpty →
          haveSameParents m x = true := by
        intro x hx hpe
        unfold findSiblings at hx
        rw [if_neg hpe] at hx
        exact (List.mem_filter.1 hx).2
      have hS3 : ((findSiblings m bucket).map FamilyMember.id).Nodup := by
        unfold findSiblings
        split
        · simp
        · exact (List.Sublist.map FamilyMember.id
            (List.filter_sublist bucket)).nodup hbnd
      have hS4 : ∀ x ∈ findSiblings m bucket, x.id ∉ processed := by
        intro x hx hxp
        unfold findSiblings at hx
        by_cases hpe : m.parentIds.isEmpty
        · rw [if_pos hpe, List.mem_singleton] at hx
          exact hpr (hx ▸ hxp)
        · rw [if_neg hpe] at hx
          obtain ⟨hxB, hmx⟩ := List.mem_filter.1 hx
          have hmne : m.parentIds ≠ [] := by
            intro hc
            exact hpe (by rw [hc]; rfl)
          have hxne : x.parentIds ≠ [] := haveSameParents_nonempty hmx hmne
          exact hpr (hI3 x hxB hxp hxne m hmB (haveSameParents_symm hmx))
      have hS6 : ∀ x ∈ bucket,
          x.id ∈ processed ++ (findSiblings m bucket).map FamilyMember.id →
          x.parentIds ≠ [] → ∀ y ∈ bucket, haveSameParents x y = true →
          y.id ∈ processed ++ (findSiblings m bucket).map FamilyMember.id := by
        intro x hxB hxp hxne y hyB hxy
        rcases List.mem_append.1 hxp with hold | hnew
        · exact List.mem_append_left _ (hI3 x hxB hold hxne y hyB hxy)
        · obtain ⟨x', hx', hx'id⟩ := List.mem_map.1 hnew
          have hxx' : x' = x := mem_of_id_mem hbnd hxB (hS1 x' hx') hx'id
          subst hxx'
          by_cases hpe : m.parentIds.isEmpty
          · unfold findSiblings at hx'
            rw [if_pos hpe, List.mem_singleton] at hx'
            subst hx'
            exact absurd (by
              rw [List.isEmpty_iff] at hpe
              exact hpe) hxne
          · have hmx : haveSameParents m x' = true := hS2' x' hx' hpe
            have hmy : haveSameParents m y = true := haveSameParents_trans hmx hxy
            apply List.mem_append_right
            refine List.mem_map.2 ⟨y, ?_, rfl⟩
            unfold findSiblings
            rw [if_neg hpe]
            exact List.mem_filter.2 ⟨hyB, hmy⟩
      obtain ⟨c1, c2, c3⟩ := ih
        (processed ++ (findSiblings m bucket).map FamilyMember.id)
        (groups ++ [findSiblings m bucket])
        (fun x hx => hrem x (List.mem_cons_of_mem _ hx))
        (by
          intro G hG x hx
          rcases List.mem_append.1 hG with hold | hnew
          · obtain ⟨hxB, hxp⟩ := hI1 G hold x hx
            exact ⟨hxB, List.mem_append_left _ hxp⟩
          · rw [List.mem_singleton] at hnew
            subst hnew
            exact ⟨hS1 x hx,
              List.mem_append_right _ (List.mem_map.2 ⟨x, hx, rfl⟩)⟩)
        (by
          rw [gIds_append]
          have hsing : gIds [findSiblings m bucket] =
              (findSiblings m bucket).map FamilyMember.id := by
            unfold gIds
            simp
          rw [hsing]
          apply List.Nodup.append hI2 hS3
          intro i hi hi2
          obtain ⟨x', hx', hx'id⟩ := List.mem_map.1 hi2
          unfold gIds at hi
          obtain ⟨G, hG, hiG⟩ := List.mem_flatMap.1 hi
          obtain ⟨z, hz, hzid⟩ := List.mem_map.1 hiG
          exact hS4 x' hx' (hx'id ▸ hzid ▸ (hI1 G hG z hz).2))
        hS6
      refine ⟨c1, ?_, ?_⟩
      · intro G hG
        rcases c2 G hG with hmem | hshape
        · rcases List.mem_append.1 hmem with hold | hnew
          · exact Or.inl hold
          · rw [List.mem_singleton] at hnew
            subst hnew
            refine Or.inr ⟨m, hmB, ?_⟩
            by_cases hpe : m.parentIds.isEmpty
            · refine Or.inl ⟨List.isEmpty_iff.1 hpe, ?_⟩
              unfold findSiblings
              rw [if_pos hpe]
            · refine Or.inr ⟨fun hc => hpe (by rw [hc]; rfl), ?_⟩
              unfold findSiblings
              rw [if_neg hpe]
        · exact Or.inr hshape
      · intro x hx
        have hsibmem : findSiblings m bucket ∈
            groupSiblingsAux bucket rest
              (processed ++ (findSiblings m bucket).map FamilyMember.id)
              (groups ++ [findSiblings m bucket]) := by
          obtain ⟨tail, htail⟩ := groupSiblingsAux_mono bucket rest
            (processed ++ (findSiblings m bucket).map FamilyMember.id)
            (groups ++ [findSiblings m bucket])
          rw [htail]
          exact List.mem_append_left _ (List.mem_append_right _
            (List.mem_singleton.2 rfl))
        rcases List.mem_cons.1 hx with rfl | hx'
        · exact Or.inr ⟨findSiblings x bucket, hsibmem, hS2⟩
        · rcases c3 x hx' with hid | hcov
          · rcases List.mem_append.1 hid with hold | hnew
            · exact Or.inl hold
            · obtain ⟨x', hx'', hx'id⟩ := List.mem_map.1 hnew
              have : x' = x := mem_of_id_mem hbnd
                (hrem x (List.mem_cons_of_mem _ hx')) (hS1 x' hx'') hx'id
              exact Or.inr ⟨findSiblings m bucket, hsibmem, this ▸ hx''⟩
          · exact Or.inr hcov

theorem sibUpdates_fst (sibs : List FamilyMember) (startX sibSpacing y : ℚ) :
    (sibUpdates sibs startX sibSpacing y).map Prod.fst =
      sibs.map FamilyMember.id := by
  unfold sibUpdates
  rw [List.map_map]
  have : (Prod.fst ∘ fun p : Nat × FamilyMember =>
      (p.2.id, ({ x := startX + p.1 * sibSpacing, y := y,
                  z := calculateZPosition p.2 } : Position3D))) =
      (FamilyMember.id ∘ Prod.snd) := rfl
  rw [this, ← List.map_map, List.enum_map_snd]

theorem groupUpdates_fst (config : TreeLayoutConfig) (y : ℚ) :
    ∀ (groups : List (List FamilyMember)) (currentX : ℚ),
      (groupUpdates config y groups currentX).map Prod.fst = gIds groups := by
  intro groups
  induction groups with
  | nil => intro currentX; rfl
  | cons G rest ih =>
    intro currentX
    rw [groupUpdates]
    show (sibUpdates G _ _ _ ++ _).map Prod.fst = _
    rw [List.map_append, sibUpdates_fst, ih]
    unfold gIds
    rw [List.flatMap_cons]

theorem genKeys_nodup (visits : List (FamilyMember × Nat)) :
    (genKeys visits).Nodup := by
  unfold genKeys
  suffices hgen : ∀ (acc : List Nat), acc.Nodup →
      (visits.foldl (fun acc v => if v.2 ∈ acc then acc else acc ++ [v.2])
        acc).Nodup from hgen [] List.nodup_nil
  induction visits with
  | nil => exact fun acc h => h
  | cons v rest ih =>
    intro acc hacc
    rw [List.foldl_cons]
    by_cases hv : v.2 ∈ acc
    · rw [if_pos hv]
      exact ih acc hacc
    · rw [if_neg hv]
      exact ih _ (by
        apply List.Nodup.append hacc (by simp)
        intro i hi hi2
        rw [List.mem_singleton] at hi2
        exact hv (hi2 ▸ hi))

theorem mem_genBucket_ids {visits : List (FamilyMember × Nat)} {g : Nat}
    {i : String} (h : i ∈ (genBucket visits g).map FamilyMember.id) :
    ∃ v ∈ visits, v.2 = g ∧ v.1.id = i := by
  unfold genBucket at h
  rw [List.map_map] at h
  obtain ⟨v, hv, hvi⟩ := List.mem_map.1 h
  obtain ⟨hvmem, hvg⟩ := List.mem_filter.1 hv
  exact ⟨v, hvmem, by simpa using hvg, hvi⟩

theorem genBucket_ids_nodup {visits : List (FamilyMember × Nat)}
    (hv : (visits.map (fun v => v.1.id)).Nodup) (g : Nat) :
    ((genBucket visits g).map FamilyMember.id).Nodup := by
  unfold genBucket
  rw [List.map_map]
  exact (List.Sublist.map _ (List.filter_sublist visits)).nodup hv

theorem groupSiblings_spec (bucket : List FamilyMember)
    (hbnd : (bucket.map FamilyMember.id).Nodup) :
    (gIds (groupSiblings bucket)).Nodup ∧
      (∀ G ∈ groupSiblings bucket, ∀ x ∈ G, x ∈ bucket) ∧
      (∀ x ∈ bucket, ∃ G ∈ groupSiblings bucket, x ∈ G) := by
  obtain ⟨c1, c2, c3⟩ := groupSiblingsAux_spec bucket hbnd bucket [] []
    (fun x hx => hx) (by simp) (by simp [gIds]) (by simp)
  refine ⟨c1, ?_, ?_⟩
  · intro G hG x hx
    rcases c2 G hG with hmem | ⟨m₀, hm₀, hshape⟩
    · simp at hmem
    · rcases hshape with ⟨_, rfl⟩ | ⟨_, rfl⟩
      · rw [List.mem_singleton] at hx
        exact hx ▸ hm₀
      · exact (List.mem_filter.1 hx).1
  · intro x hx
    rcases c3 x hx with hid | hcov
    · simp at hid
    · exact hcov

/-- All ids targeted by the position writes are pairwise distinct: the visit
log has unique ids, each generation bucket draws from a distinct slice of it,
and within a bucket the sibling groups are disjoint. -/
theorem layoutUpdates_ids_nodup (config : TreeLayoutConfig)
    {visits : List (FamilyMember × Nat)}
    (hv : (visits.map (fun v => v.1.id)).Nodup) :
    ((layoutUpdates config visits).map Prod.fst).Nodup := by
  unfold layoutUpdates
  have hmapfst : ∀ (ks : List Nat),
      ((ks.flatMap (fun g =>
        groupUpdates config (-(g : ℚ) * config.generationSpacing)
          (groupSiblings (genBucket visits g)) 0)).map Prod.fst) =
      ks.flatMap (fun g => gIds (groupSiblings (genBucket visits g))) := by
    intro ks
    induction ks with
    | nil => rfl
    | cons k ks ih =>
      rw [List.flatMap_cons, List.flatMap_cons, List.map_append, ih,
        groupUpdates_fst]
  rw [hmapfst]
  have hpieceN : ∀ g, (gIds (groupSiblings (genBucket visits g))).Nodup :=
    fun g => (groupSiblings_spec _ (genBucket_ids_nodup hv g)).1
  have hpieceG : ∀ g, ∀ i ∈ gIds (groupSiblings (genBucket visits g)),
      ∃ v ∈ visits, v.2 = g ∧ v.1.id = i := by
    intro g i hi
    unfold gIds at hi
    obtain ⟨G, hG, hiG⟩ := List.mem_flatMap.1 hi
    obtain ⟨x, hxG, hxid⟩ := List.mem_map.1 hiG
    have hxB := (groupSiblings_spec _ (genBucket_ids_nodup hv g)).2.1 G hG x hxG
    exact mem_genBucket_ids (List.mem_map.2 ⟨x, hxB, hxid⟩)
  suffices hgen : ∀ (ks : List Nat), ks.Nodup →
      (ks.flatMap (fun g => gIds (groupSiblings (genBucket visits g)))).Nodup from
    hgen _ (genKeys_nodup visits)
  intro ks
  induction ks with
  | nil => intro _; simp
  | cons k ks ih =>
    intro hnd
    rw [List.flatMap_cons]
    apply List.Nodup.append (hpieceN k) (ih (List.nodup_cons.1 hnd).2)
    intro i hi hi2
    obtain ⟨v, hvmem, hvg, hvid⟩ := hpieceG k i hi
    obtain ⟨k', hk', hik'⟩ := List.mem_flatMap.1 hi2
    obtain ⟨v', hv'mem, hv'g, hv'id⟩ := hpieceG k' i hik'
    have : v' = v := List.inj_on_of_nodup_map hv hv'mem hvmem
      (by rw [hvid, hv'id])
    rw [← this, hv'g] at hvg
    exact (List.nodup_cons.1 hnd).1 (hvg ▸ hk')

/-! ### Claim C9: idempotence of both engines -/

theorem forall₂_trans {α : Type} {r : α → α → Prop}
    (ht : ∀ a b c, r a b → r b c → r a c) :
    ∀ {l₁ l₂ l₃ : List α}, List.Forall₂ r l₁ l₂ → List.Forall₂ r l₂ l₃ →
      List.Forall₂ r l₁ l₃ := by
  intro l₁ l₂ l₃ h1
  induction h1 generalizing l₃ with
  | nil => intro h2; cases h2; exact List.Forall₂.nil
  | @cons a b t₁ t₂ hab htl ih =>
    intro h2
    cases h2 with
    | cons hbc htl2 => exact List.Forall₂.cons (ht _ _ _ hab hbc) (ih htl2)

theorem layoutRel_trans (a b c : FamilyMember) (h1 : layoutRel a b)
    (h2 : layoutRel b c) : layoutRel a c :=
  ⟨h1.1.trans h2.1, h1.2.1.trans h2.2.1, h1.2.2.trans h2.2.2⟩

theorem layoutRel_of_eqUpToPosition {a b : FamilyMember}
    (h : eqUpToPosition a b) : layoutRel a b := by
  rw [h]
  exact ⟨rfl, rfl, rfl⟩

theorem forall₂_mem_right {α : Type} {r : α → α → Prop} :
    ∀ {l₁ l₂ : List α}, List.Forall₂ r l₁ l₂ → ∀ {x}, x ∈ l₂ →
      ∃ y ∈ l₁, r y x := by
  intro l₁ l₂ h
  induction h with
  | nil => intro x hx; cases hx
  | @cons a b t₁ t₂ hab htl ih =>
    intro x hx
    rcases List.mem_cons.1 hx with rfl | hx'
    · exact ⟨a, List.mem_cons_self _ _, hab⟩
    · obtain ⟨y, hy, hyx⟩ := ih hx'
      exact ⟨y, List.mem_cons_of_mem _ hy, hyx⟩

theorem applyGenerations_layoutRel (visits : List (FamilyMember × Nat))
    (ms : List FamilyMember) :
    List.Forall₂ layoutRel ms (applyGenerations visits ms) := by
  unfold applyGenerations
  rw [List.forall₂_map_right_iff]
  apply List.forall₂_same.2
  intro m _
  split <;> exact ⟨rfl, rfl, rfl⟩

/-- Re-running the generation assignment with a structurally equal visit log
over an already-assigned member list changes nothing. -/
theorem applyGenerations_noop {visits visits' : List (FamilyMember × Nat)}
    (hrel : List.Forall₂ queueRel visits visits')
    {ms out : List FamilyMember}
    (hout : List.Forall₂ eqUpToPosition (applyGenerations visits ms) out) :
    applyGenerations visits' out = out := by
  unfold applyGenerations
  have hself : ∀ x ∈ out,
      (match visits'.find? (fun v => v.1.id == x.id) with
        | some v => { x with generation := v.2 }
        | none => x) = x := by
    intro x hx
    obtain ⟨y, hy, hxy⟩ := forall₂_mem_right hout hx
    unfold applyGenerations at hy
    obtain ⟨z, _, hyz⟩ := List.mem_map.1 hy
    have hxidy : x.id = y.id := by rw [hxy]
    have hyidz : y.id = z.id := by
      rw [← hyz]
      split <;> rfl
    have hxid : x.id = z.id := hxidy.trans hyidz
    have hpred : (fun v : FamilyMember × Nat => v.1.id == x.id) =
        (fun v => v.1.id == z.id) := by rw [hxid]
    rcases find?_rel (r := queueRel) (p := fun v => v.1.id == z.id)
        (fun a b hab => by simp only [hab.1.1]) hrel with
      ⟨_, hn'⟩ | ⟨v, v', hvv', hs, hs'⟩
    · rw [hpred, hn']
    · rw [hpred, hs']
      have hygen : y.generation = v.2 := by
        rw [← hyz, hs]
      have hxgen : x.generation = y.generation := by rw [hxy]
      have hxv' : x.generation = v'.2 := by rw [hxgen, hygen, hvv'.2]
      show ({ x with generation := v'.2 }) = x
      rw [← hxv']
  exact (List.map_congr_left hself).trans (List.map_id out)

/-- The per-disease fold touches only `riskScores`. -/
theorem familyFold_scrub (ds : List Disease) :
    ∀ (start : List FamilyMember) (rs : List GeneticRisk),
      ((ds.foldl (fun acc d =>
          let r := calculateDiseaseRisks acc.1 d
          (r.1, acc.2 ++ r.2)) (start, rs)).1).map
        (fun m => { m with riskScores := ([] : List (String × ℚ)) }) =
      start.map (fun m => { m with riskScores := ([] : List (String × ℚ)) }) := by
  induction ds with
  | nil => intro start rs; rfl
  | cons d ds ih =>
    intro start rs
    rw [List.foldl_cons]
    rw [ih]
    show ((calculateDiseaseRisks start d).1).map _ = _
    unfold calculateDiseaseRisks
    rw [List.map_map]
    rfl

/-- Re-running the risk engine on its own output reproduces it exactly. -/
theorem calculateFamilyRisks_idem (ms : List FamilyMember) (ds : List Disease) :
    calculateFamilyRisks (calculateFamilyRisks ms ds).1 ds =
      calculateFamilyRisks ms ds := by
  show ds.foldl (fun acc d =>
      let r := calculateDiseaseRisks acc.1 d
      (r.1, acc.2 ++ r.2))
    (((calculateFamilyRisks ms ds).1).map
        (fun m => { m with riskScores := ([] : List (String × ℚ)) }),
      ([] : List GeneticRisk)) = calculateFamilyRisks ms ds
  have hreset : ((calculateFamilyRisks ms ds).1).map
      (fun m => { m with riskScores := ([] : List (String × ℚ)) }) =
      ms.map (fun m => { m with riskScores := ([] : List (String × ℚ)) }) := by
    show ((ds.foldl (fun acc d =>
        let r := calculateDiseaseRisks acc.1 d
        (r.1, acc.2 ++ r.2))
      (ms.map (fun m => { m with riskScores := ([] : List (String × ℚ)) }),
        ([] : List GeneticRisk))).1).map
        (fun m => { m with riskScores := ([] : List (String × ℚ)) }) =
      ms.map (fun m => { m with riskScores := ([] : List (String × ℚ)) })
    rw [familyFold_scrub]
    rw [List.map_map]
    rfl
  rw [hreset]
  rfl

/-- Re-running the layout engine on its own output reproduces it exactly. -/
theorem calculateLayout_idem (ms : List FamilyMember)
    (config : TreeLayoutConfig) :
    calculateLayout (calculateLayout ms config) config =
      calculateLayout ms config := by
  have heq := calculateLayout_eq ms config
  have hout_eqpos : List.Forall₂ eqUpToPosition
      (applyGenerations (organizeByGenerations ms) ms)
      (calculateLayout ms config) := by
    rw [heq]
    exact applyUpdates_eqUpToPosition _ _
  have hrel_ms_out : List.Forall₂ layoutRel ms (calculateLayout ms config) :=
    forall₂_trans layoutRel_trans
      (applyGenerations_layoutRel (organizeByGenerations ms) ms)
      (hout_eqpos.imp (fun a b => layoutRel_of_eqUpToPosition))
  have hvis := organizeByGenerations_rel hrel_ms_out
  rw [calculateLayout_eq (calculateLayout ms config) config]
  rw [applyGenerations_noop hvis hout_eqpos]
  rw [← layoutUpdates_congr hvis config]
  rw [heq]
  exact applyUpdates_idem_of_nodup _ [] _
    (layoutUpdates_ids_nodup config (organizeByGenerations_ids_nodup ms))

/-- C9: both engines are idempotent and deterministic — running
`calculateFamilyRisks` or `calculateLayout` a second time over the first run's
output (the unchanged graph: same ids, relationships, affected sets and
config) reproduces exactly the same risk scores and the same positions,
including the id-hash-derived z coordinate, since the output member records
are equal field for field. -/
theorem C9_engines_idempotent (ms : List FamilyMember) (ds : List Disease)
    (config : TreeLayoutConfig) :
    calculateFamilyRisks (calculateFamilyRisks ms ds).1 ds =
        calculateFamilyRisks ms ds ∧
      calculateLayout (calculateLayout ms config) config =
        calculateLayout ms config :=
  ⟨calculateFamilyRisks_idem ms ds, calculateLayout_idem ms config⟩

/-! ### Claim C7: the generation invariant -/

/-- The generation rule exactly as the specification words it, as a decidable
check on the layout output: every root (empty `parentIds`) carries
generation 0, and every member's generation is one more than that of EVERY
parent that resolves within the list. -/
def generationClaim (out : List FamilyMember) : Bool :=
  out.all (fun p =>
    (if p.parentIds.isEmpty then p.generation == 0 else true) &&
      p.parentIds.all (fun qid =>
        match mapGet out qid with
        | some q => p.generation == q.generation + 1
        | none => true))

/-- C7 is false of the code: in the diamond pedigree (roots `G` and `B`, with
`A` the child of `G` and `C` the child of both `A` and `B`), the BFS assigns
`C` generation 1 while its resolved parent `A` also has generation 1, so
`p.generation = q.generation + 1` fails at the parent `A`. -/
theorem C7_counterexample :
    generationClaim (calculateLayout diamondFamily DEFAULT_CONFIG) = false := by
  have h : calculateLayoutFuel diamondFamily DEFAULT_CONFIG 10
      = some ((calculateLayoutFuel diamondFamily DEFAULT_CONFIG 10).get
        (by decide)) :=
    Option.eq_some_of_isSome (by decide)
  rw [calculateLayout_eq_of_fuel h]
  decide

/-- With pairwise-distinct ids, the member map sends each member's id to the
member itself. -/
theorem mapGet_self {ms : List FamilyMember}
    (hnodup : (ms.map (fun m => m.id)).Nodup) {m : FamilyMember}
    (hm : m ∈ ms) : mapGet ms m.id = some m := by
  unfold mapGet
  cases hfind : ms.reverse.find? (fun v => v.id == m.id) with
  | none =>
    have := List.find?_eq_none.1 hfind m (List.mem_reverse.2 hm)
    simp at this
  | some c =>
    have hcmem := List.mem_reverse.1 (List.mem_of_find?_eq_some hfind)
    have hcid : c.id = m.id := by simpa using List.find?_some hfind
    rw [List.inj_on_of_nodup_map hnodup hcmem hm hcid]

/-- With pairwise-distinct ids, searching a member list for a member's own id
finds that member. -/
theorem find?_id_self {L : List FamilyMember}
    (hnodup : (L.map (fun m => m.id)).Nodup) {m : FamilyMember}
    (hm : m ∈ L) : L.find? (fun v => v.id == m.id) = some m := by
  cases hfind : L.find? (fun v => v.id == m.id) with
  | none =>
    have := List.find?_eq_none.1 hfind m hm
    simp at this
  | some c =>
    have hcmem := List.mem_of_find?_eq_some hfind
    have hcid : c.id = m.id := by simpa using List.find?_some hfind
    rw [List.inj_on_of_nodup_map hnodup hcmem hm hcid]

theorem forall₂_mem_left {α : Type} {r : α → α → Prop} :
    ∀ {l₁ l₂ : List α}, List.Forall₂ r l₁ l₂ → ∀ {x}, x ∈ l₁ →
      ∃ y ∈ l₂, r x y := by
  intro l₁ l₂ h
  induction h with
  | nil => intro x hx; cases hx
  | @cons a b t₁ t₂ hab htl ih =>
    intro x hx
    rcases List.mem_cons.1 hx with rfl | hx'
    · exact ⟨b, List.mem_cons_self _ _, hab⟩
    · obtain ⟨y, hy, hyx⟩ := ih hx'
      exact ⟨y, List.mem_cons_of_mem _ hy, hyx⟩

/-- BFS generation bookkeeping: every visit-log entry is a member of the
family, parentless entries are assigned generation 0, and every entry with
parents was enqueued by an earlier-visited member that lists it among its
children, one generation up.  The queue hypotheses are the matching facts for
the pending entries. -/
theorem bfsAux_gen_invariant (ms : List FamilyMember)
    (hsym2 : ∀ q ∈ ms, ∀ cid ∈ q.childrenIds, ∀ c ∈ ms, c.id = cid →
      q.id ∈ c.parentIds) :
    ∀ (queue : List (FamilyMember × Nat)) (visited : List String)
      (acc : List (FamilyMember × Nat)),
      (∀ e ∈ queue, e.1 ∈ ms) →
      (∀ e ∈ queue, e.1.parentIds = [] → e.2 = 0) →
      (∀ e ∈ queue, e.1.parentIds ≠ [] →
        ∃ pe ∈ acc, e.2 = pe.2 + 1 ∧ e.1.id ∈ pe.1.childrenIds) →
      (∀ a ∈ acc, a.1 ∈ ms) →
      (∀ a ∈ acc, a.1.parentIds = [] → a.2 = 0) →
      (∀ a ∈ acc, a.1.parentIds ≠ [] →
        ∃ pa ∈ acc, a.2 = pa.2 + 1 ∧ a.1.id ∈ pa.1.childrenIds) →
      (∀ a ∈ bfsAux ms queue visited acc, a.1 ∈ ms) ∧
        (∀ a ∈ bfsAux ms queue visited acc, a.1.parentIds = [] → a.2 = 0) ∧
        (∀ a ∈ bfsAux ms queue visited acc, a.1.parentIds ≠ [] →
          ∃ pa ∈ bfsAux ms queue visited acc,
            a.2 = pa.2 + 1 ∧ a.1.id ∈ pa.1.childrenIds) := by
  intro queue visited acc
  induction queue, visited, acc using bfsAux.induct ms with
  | case1 visited acc =>
    intro _ _ _ hA1 hA2 hA3
    rw [bfsAux]
    exact ⟨hA1, hA2, hA3⟩
  | case2 visited acc m g rest hv ih =>
    intro hQ1 hQ2 hQ3 hA1 hA2 hA3
    rw [bfsAux, if_pos hv]
    exact ih (fun e he => hQ1 e (List.mem_cons_of_mem _ he))
      (fun e he => hQ2 e (List.mem_cons_of_mem _ he))
      (fun e he => hQ3 e (List.mem_cons_of_mem _ he)) hA1 hA2 hA3
  | case3 visited acc m g rest hv ih =>
    intro hQ1 hQ2 hQ3 hA1 hA2 hA3
    rw [bfsAux, if_neg hv]
    have hmms : m ∈ ms := hQ1 (m, g) (List.mem_cons_self _ _)
    apply ih
    · intro e he
      rcases List.mem_append.1 he with h | h
      · exact hQ1 e (List.mem_cons_of_mem _ h)
      · obtain ⟨c, hc, rfl⟩ := List.mem_map.1 h
        exact (mem_freshChildren hc).1
    · intro e he hnil
      rcases List.mem_append.1 he with h | h
      · exact hQ2 e (List.mem_cons_of_mem _ h) hnil
      · obtain ⟨c, hc, rfl⟩ := List.mem_map.1 h
        obtain ⟨hcms, hcid, -, -⟩ := mem_freshChildren hc
        have hpc := hsym2 m hmms c.id hcid c hcms rfl
        have hnil' : c.parentIds = [] := hnil
        rw [hnil'] at hpc
        cases hpc
    · intro e he hne
      rcases List.mem_append.1 he with h | h
      · obtain ⟨pe, hpe, hg, hcid⟩ := hQ3 e (List.mem_cons_of_mem _ h) hne
        exact ⟨pe, List.mem_append_left _ hpe, hg, hcid⟩
      · obtain ⟨c, hc, rfl⟩ := List.mem_map.1 h
        obtain ⟨-, hcid, -, -⟩ := mem_freshChildren hc
        exact ⟨(m, g), List.mem_append_right _ (List.mem_singleton.2 rfl),
          rfl, hcid⟩
    · intro a ha
      rcases List.mem_append.1 ha with h | h
      · exact hA1 a h
      · rw [List.mem_singleton.1 h]
        exact hmms
    · intro a ha hnil
      rcases List.mem_append.1 ha with h | h
      · exact hA2 a h hnil
      · rw [List.mem_singleton.1 h] at hnil ⊢
        exact hQ2 (m, g) (List.mem_cons_self _ _) hnil
    · intro a ha hne
      rcases List.mem_append.1 ha with h | h
      · obtain ⟨pa, hpa, hg, hcid⟩ := hA3 a h hne
        exact ⟨pa, List.mem_append_left _ hpa, hg, hcid⟩
      · rw [List.mem_singleton.1 h] at hne ⊢
        obtain ⟨pe, hpe, hg, hcid⟩ := hQ3 (m, g) (List.mem_cons_self _ _) hne
        exact ⟨pe, List.mem_append_left _ hpe, hg, hcid⟩

/-- Ids already visited, and the ids of everything still on the queue, all
appear in the final visit log (provided the visited set is covered by the log
so far). -/
theorem bfsAux_queue_visited (ms : List FamilyMember) :
    ∀ (queue : List (FamilyMember × Nat)) (visited : List String)
      (acc : List (FamilyMember × Nat)),
      (∀ i ∈ visited, i ∈ acc.map (fun v => v.1.id)) →
      (∀ i ∈ visited,
          i ∈ (bfsAux ms queue visited acc).map (fun v => v.1.id)) ∧
        (∀ e ∈ queue,
          e.1.id ∈ (bfsAux ms queue visited acc).map (fun v => v.1.id)) := by
  intro queue visited acc
  induction queue, visited, acc using bfsAux.induct ms with
  | case1 visited acc =>
    intro hvis
    rw [bfsAux]
    exact ⟨hvis, by simp⟩
  | case2 visited acc m g rest hv ih =>
    intro hvis
    rw [bfsAux, if_pos hv]
    obtain ⟨h1, h2⟩ := ih hvis
    refine ⟨h1, ?_⟩
    intro e he
    rcases List.mem_cons.1 he with rfl | he'
    · exact h1 m.id hv
    · exact h2 e he'
  | case3 visited acc m g rest hv ih =>
    intro hvis
    rw [bfsAux, if_neg hv]
    have hvis' : ∀ i ∈ m.id :: visited,
        i ∈ (acc ++ [(m, g)]).map (fun v => v.1.id) := by
      intro i hi
      rw [List.map_append]
      rcases List.mem_cons.1 hi with rfl | hi'
      · exact List.mem_append_right _ (by simp)
      · exact List.mem_append_left _ (hvis i hi')
    obtain ⟨h1, h2⟩ := ih hvis'
    refine ⟨fun i hi => h1 i (List.mem_cons_of_mem _ hi), ?_⟩
    intro e he
    rcases List.mem_cons.1 he with rfl | he'
    · exact h1 m.id (List.mem_cons_self _ _)
    · exact h2 e (List.mem_append_left _ he')

/-- When a not-yet-visited member reaches the final visit log, so does every
one of its resolvable children: the enqueue step
`if (child && !visited.has(childId)) queue.push(...)` fires at its visit. -/
theorem bfsAux_children_reached (ms : List FamilyMember)
    (hnodup : (ms.map (fun m => m.id)).Nodup) :
    ∀ (queue : List (FamilyMember × Nat)) (visited : List String)
      (acc : List (FamilyMember × Nat)),
      (∀ e ∈ queue, e.1 ∈ ms) →
      (∀ a ∈ acc, a.1.id ∈ visited) →
      (∀ i ∈ visited, i ∈ acc.map (fun v => v.1.id)) →
      ∀ q ∈ ms, q.id ∉ visited →
        q.id ∈ (bfsAux ms queue visited acc).map (fun v => v.1.id) →
        ∀ c ∈ ms, c.id ∈ q.childrenIds →
          c.id ∈ (bfsAux ms queue visited acc).map (fun v => v.1.id) := by
  intro queue visited acc
  induction queue, visited, acc using bfsAux.induct ms with
  | case1 visited acc =>
    intro _ hacc _ q _ hqv hqfin c _ _
    rw [bfsAux] at hqfin ⊢
    obtain ⟨v, hvmem, hvid⟩ := List.mem_map.1 hqfin
    exact absurd (hvid ▸ hacc v hvmem) hqv
  | case2 visited acc m g rest hv ih =>
    intro hQ1 hacc hvis q hqms hqv hqfin c hcms hcch
    rw [bfsAux, if_pos hv] at hqfin ⊢
    exact ih (fun e he => hQ1 e (List.mem_cons_of_mem _ he)) hacc hvis
      q hqms hqv hqfin c hcms hcch
  | case3 visited acc m g rest hv ih =>
    intro hQ1 hacc hvis q hqms hqv hqfin c hcms hcch
    rw [bfsAux, if_neg hv] at hqfin ⊢
    have hmms : m ∈ ms := hQ1 (m, g) (List.mem_cons_self _ _)
    have hQ1' : ∀ e ∈ rest ++ (freshChildren ms visited m).map
        (fun c => (c, g + 1)), e.1 ∈ ms := by
      intro e he
      rcases List.mem_append.1 he with h | h
      · exact hQ1 e (List.mem_cons_of_mem _ h)
      · obtain ⟨c', hc', rfl⟩ := List.mem_map.1 h
        exact (mem_freshChildren hc').1
    have hacc' : ∀ a ∈ acc ++ [(m, g)], a.1.id ∈ m.id :: visited := by
      intro a ha
      rcases List.mem_append.1 ha with h | h
      · exact List.mem_cons_of_mem _ (hacc a h)
      · rw [List.mem_singleton.1 h]
        exact List.mem_cons_self _ _
    have hvis' : ∀ i ∈ m.id :: visited,
        i ∈ (acc ++ [(m, g)]).map (fun v => v.1.id) := by
      intro i hi
      rw [List.map_append]
      rcases List.mem_cons.1 hi with rfl | hi'
      · exact List.mem_append_right _ (by simp)
      · exact List.mem_append_left _ (hvis i hi')
    by_cases hqm : q.id = m.id
    · have hqm' : q = m := List.inj_on_of_nodup_map hnodup hqms hmms hqm
      subst hqm'
      by_cases hcv : c.id ∈ visited
      · exact (bfsAux_queue_visited ms _ _ _ hvis').1 c.id
          (List.mem_cons_of_mem _ hcv)
      · have hcget : mapGet ms c.id = some c := mapGet_self hnodup hcms
        have hcfresh : c ∈ freshChildren ms visited q := by
          unfold freshChildren
          refine List.mem_filterMap.2 ⟨c.id, hcch, ?_⟩
          rw [hcget]
          simp [hcv]
        exact (bfsAux_queue_visited ms _ _ _ hvis').2 (c, g + 1)
          (List.mem_append_right _ (List.mem_map.2 ⟨c, hcfresh, rfl⟩))
    · have hqv' : q.id ∉ m.id :: visited := by
        intro hq
        rcases List.mem_cons.1 hq with h | h
        · exact hqm h
        · exact hqv h
      exact ih hQ1' hacc' hvis' q hqms hqv' hqfin c hcms hcch

/-- Every entry of the visit log is a family member; parentless entries get
generation 0; entries with parents get one more than some earlier-visited
member that lists them among its children. -/
theorem organizeByGenerations_gen (ms : List FamilyMember)
    (hsym2 : ∀ q ∈ ms, ∀ cid ∈ q.childrenIds, ∀ c ∈ ms, c.id = cid →
      q.id ∈ c.parentIds) :
    (∀ a ∈ organizeByGenerations ms, a.1 ∈ ms) ∧
      (∀ a ∈ organizeByGenerations ms, a.1.parentIds = [] → a.2 = 0) ∧
      (∀ a ∈ organizeByGenerations ms, a.1.parentIds ≠ [] →
        ∃ pa ∈ organizeByGenerations ms,
          a.2 = pa.2 + 1 ∧ a.1.id ∈ pa.1.childrenIds) := by
  unfold organizeByGenerations
  apply bfsAux_gen_invariant ms hsym2 _ _ _ ?_ ?_ ?_ (by simp) (by simp) (by simp)
  · intro e he
    obtain ⟨w, hw, rfl⟩ := List.mem_map.1 he
    exact List.mem_of_mem_filter hw
  · intro e he _
    obtain ⟨w, hw, rfl⟩ := List.mem_map.1 he
    rfl
  · intro e he hne
    obtain ⟨w, hw, rfl⟩ := List.mem_map.1 he
    exfalso
    apply hne
    have hflt := List.of_mem_filter hw
    cases hwp : w.parentIds with
    | nil => rfl
    | cons x xs =>
      rw [show ((fun m => m.parentIds.isEmpty) w = true) =
        (w.parentIds.isEmpty = true) from rfl, hwp] at hflt
      simp at hflt

/-- In a well-formed pedigree (unique ids, every listed parent resolving,
`parentIds`/`childrenIds` mirroring each other, and a parenthood relation
admitting a rank function, i.e. acyclic), the BFS reaches every member. -/
theorem organizeByGenerations_complete (ms : List FamilyMember)
    (hnodup : (ms.map (fun m => m.id)).Nodup)
    (rank : String → Nat)
    (hrank : ∀ m ∈ ms, ∀ pid ∈ m.parentIds, rank pid < rank m.id)
    (hres : ∀ m ∈ ms, ∀ pid ∈ m.parentIds, (mapGet ms pid).isSome = true)
    (hsym1 : ∀ m ∈ ms, ∀ pid ∈ m.parentIds, ∀ q ∈ ms, q.id = pid →
      m.id ∈ q.childrenIds) :
    ∀ m ∈ ms, m.id ∈ (organizeByGenerations ms).map (fun v => v.1.id) := by
  have key : ∀ n, ∀ m ∈ ms, rank m.id < n →
      m.id ∈ (organizeByGenerations ms).map (fun v => v.1.id) := by
    intro n
    induction n with
    | zero => exact fun m _ h => absurd h (Nat.not_lt_zero _)
    | succ n ih =>
      intro m hm hlt
      cases hmp : m.parentIds with
      | nil =>
        have hq : (m, 0) ∈ (ms.filter (fun x => x.parentIds.isEmpty)).map
            (fun x => (x, 0)) :=
          List.mem_map.2 ⟨m, List.mem_filter.2 ⟨hm, by
            show m.parentIds.isEmpty = true
            rw [hmp]
            rfl⟩, rfl⟩
        unfold organizeByGenerations
        exact (bfsAux_queue_visited ms _ [] [] (by simp)).2 (m, 0) hq
      | cons p ps =>
        have hpid : p ∈ m.parentIds := by
          rw [hmp]
          exact List.mem_cons_self _ _
        have hps : (mapGet ms p).isSome = true := hres m hm p hpid
        obtain ⟨q, hq⟩ := Option.isSome_iff_exists.1 hps
        obtain ⟨hqms, hqid⟩ := mapGet_eq_some hq
        have hrk : rank p < rank m.id := hrank m hm p hpid
        have hqin : q.id ∈ (organizeByGenerations ms).map (fun v => v.1.id) :=
          ih q hqms (by rw [hqid]; omega)
        have hmch : m.id ∈ q.childrenIds := hsym1 m hm p hpid q hqms hqid
        unfold organizeByGenerations at hqin ⊢
        exact bfsAux_children_reached ms hnodup _ [] []
          (by
            intro e he
            obtain ⟨w, hw, rfl⟩ := List.mem_map.1 he
            exact List.mem_of_mem_filter hw)
          (by simp) (by simp) q hqms (by simp) hqin m hm hmch
  intro m hm
  exact key (rank m.id + 1) m hm (Nat.lt_succ_self _)

/-- When a member is reached by the BFS, looking its id up in the visit log
finds exactly that member, paired with its assigned generation. -/
theorem visits_find_self (ms : List FamilyMember)
    (hnodup : (ms.map (fun m => m.id)).Nodup)
    (hA1 : ∀ a ∈ organizeByGenerations ms, a.1 ∈ ms)
    {z : FamilyMember} (hz : z ∈ ms)
    (hzin : z.id ∈ (organizeByGenerations ms).map (fun v => v.1.id)) :
    ∃ g, (organizeByGenerations ms).find? (fun v => v.1.id == z.id) =
      some (z, g) := by
  obtain ⟨e, he, heid⟩ := List.mem_map.1 hzin
  cases hfind : (organizeByGenerations ms).find? (fun v => v.1.id == z.id) with
  | none =>
    have := List.find?_eq_none.1 hfind e he
    simp only [beq_iff_eq] at this
    exact absurd heid this
  | some v =>
    have hvmem := List.mem_of_find?_eq_some hfind
    have hvid : v.1.id = z.id := by simpa using List.find?_some hfind
    have hv1 : v.1 = z := List.inj_on_of_nodup_map hnodup (hA1 v hvmem) hz hvid
    exact ⟨v.2, by rw [← hv1]⟩

/-- Amended C7: on well-formed pedigrees (unique member ids, every listed
parent resolving, `parentIds`/`childrenIds` mirroring each other, and an
acyclic — ranked — parenthood relation), the layout engine assigns every root
generation 0 and gives every member with parents a generation one more than
that of AT LEAST ONE resolved parent.  The all-parents version of the claim
is refuted by the recorded counterexample. -/
theorem C7_amended_generation_invariant (ms : List FamilyMember)
    (config : TreeLayoutConfig) (rank : String → Nat)
    (hnodup : (ms.map (fun m => m.id)).Nodup)
    (hrank : ∀ m ∈ ms, ∀ pid ∈ m.parentIds, rank pid < rank m.id)
    (hres : ∀ m ∈ ms, ∀ pid ∈ m.parentIds, (mapGet ms pid).isSome = true)
    (hsym1 : ∀ m ∈ ms, ∀ pid ∈ m.parentIds, ∀ q ∈ ms, q.id = pid →
      m.id ∈ q.childrenIds)
    (hsym2 : ∀ q ∈ ms, ∀ cid ∈ q.childrenIds, ∀ c ∈ ms, c.id = cid →
      q.id ∈ c.parentIds) :
    (∀ p ∈ calculateLayout ms config, p.parentIds = [] → p.generation = 0) ∧
      (∀ p ∈ calculateLayout ms config, p.parentIds ≠ [] →
        ∃ qid ∈ p.parentIds, ∃ q ∈ calculateLayout ms config,
          q.id = qid ∧ p.generation = q.generation + 1) := by
  obtain ⟨hA1, hA2, hA3⟩ := organizeByGenerations_gen ms hsym2
  have hcomplete := organizeByGenerations_complete ms hnodup rank hrank hres hsym1
  have hvnodup := organizeByGenerations_ids_nodup ms
  rw [calculateLayout_eq ms config]
  have hmidout := applyUpdates_eqUpToPosition
    (layoutUpdates config (organizeByGenerations ms))
    (applyGenerations (organizeByGenerations ms) ms)
  have hchar : ∀ p ∈ applyUpdates
      (layoutUpdates config (organizeByGenerations ms))
      (applyGenerations (organizeByGenerations ms) ms),
      ∃ z ∈ ms, ∃ g, p.id = z.id ∧ p.parentIds = z.parentIds ∧
        p.generation = g ∧
        (organizeByGenerations ms).find? (fun v => v.1.id == z.id) =
          some (z, g) := by
    intro p hp
    obtain ⟨y, hy, hyp⟩ := forall₂_mem_right hmidout hp
    obtain ⟨z, hz, hzy⟩ := List.mem_map.1 hy
    have hzy' : (match (organizeByGenerations ms).find?
          (fun v => v.1.id == z.id) with
        | some v => { z with generation := v.2 }
        | none => z) = y := hzy
    obtain ⟨g, hfind⟩ := visits_find_self ms hnodup hA1 hz (hcomplete z hz)
    rw [hfind] at hzy'
    have hyid : y.id = z.id := by rw [← hzy']
    have hypar : y.parentIds = z.parentIds := by rw [← hzy']
    have hygen : y.generation = g := by rw [← hzy']
    have hpid : p.id = y.id := by rw [hyp]
    have hppar : p.parentIds = y.parentIds := by rw [hyp]
    have hpgen : p.generation = y.generation := by rw [hyp]
    exact ⟨z, hz, g, hpid.trans hyid, hppar.trans hypar,
      hpgen.trans hygen, hfind⟩
  constructor
  · intro p hp hpnil
    obtain ⟨z, hz, g, hpid, hppar, hpgen, hfind⟩ := hchar p hp
    have hznil : z.parentIds = [] := by
      rw [← hppar]
      exact hpnil
    have hmem := List.mem_of_find?_eq_some hfind
    have hg0 : g = 0 := hA2 (z, g) hmem hznil
    rw [hpgen, hg0]
  · intro p hp hpne
    obtain ⟨z, hz, g, hpid, hppar, hpgen, hfind⟩ := hchar p hp
    have hzne : z.parentIds ≠ [] := by
      rw [← hppar]
      exact hpne
    have hmem := List.mem_of_find?_eq_some hfind
    obtain ⟨pa, hpamem, hgeq, hchild⟩ := hA3 (z, g) hmem hzne
    obtain ⟨w, gw⟩ := pa
    have hwms : w ∈ ms := hA1 (w, gw) hpamem
    have hqidpar : w.id ∈ z.parentIds := hsym2 w hwms z.id hchild z hz rfl
    obtain ⟨g', hfind'⟩ := visits_find_self ms hnodup hA1 hwms
      (hcomplete w hwms)
    have hentry : (w, g') = (w, gw) :=
      List.inj_on_of_nodup_map hvnodup
        (List.mem_of_find?_eq_some hfind') hpamem rfl
    have hg'gw : g' = gw := by injection hentry
    have hymem : (match (organizeByGenerations ms).find?
          (fun v => v.1.id == w.id) with
        | some v => { w with generation := v.2 }
        | none => w) ∈ applyGenerations (organizeByGenerations ms) ms :=
      List.mem_map_of_mem _ hwms
    rw [hfind'] at hymem
    obtain ⟨qout, hqout, hqrel⟩ := forall₂_mem_left hmidout hymem
    have hqid2 : qout.id = w.id := by rw [hqrel]
    have hqgen : qout.generation = g' := by rw [hqrel]
    refine ⟨w.id, ?_, qout, hqout, hqid2, ?_⟩
    · rw [hppar]
      exact hqidpar
    · rw [hpgen, hqgen, hg'gw]
      exact hgeq

/-- A rank function witnessing the acyclicity of the diamond pedigree. -/
def diamondRank (s : String) : Nat :=
  if s = "A" then 1 else if s = "C" then 2 else 0

/-- Witness for the amended C7 theorem at the diamond pedigree. -/
theorem C7_witness :
    (∀ p ∈ calculateLayout diamondFamily DEFAULT_CONFIG,
        p.parentIds = [] → p.generation = 0) ∧
      (∀ p ∈ calculateLayout diamondFamily DEFAULT_CONFIG,
        p.parentIds ≠ [] →
        ∃ qid ∈ p.parentIds,
          ∃ q ∈ calculateLayout diamondFamily DEFAULT_CONFIG,
            q.id = qid ∧ p.generation = q.generation + 1) :=
  C7_amended_generation_invariant diamondFamily DEFAULT_CONFIG diamondRank
    (by decide) (by decide) (by decide) (by decide) (by decide)

/-! ### Claim C8: sibling placement -/

/-- A member whose only listed parent id `GH` resolves to nobody; the stale
position (y = 7) and generation survive the layout run because the BFS never
reaches such a member. -/
def ghostKid (i : String) : FamilyMember :=
  { id := i, name := i, age := 30, gender := Gender.female,
    parentIds := ["GH"], childrenIds := [], diseases := [], riskScores := [],
    position := { x := 0, y := 7, z := 0 }, generation := 0 }

/-- Two full siblings under an unresolvable parent: the family has no roots,
so the layout BFS terminates immediately and positions nobody. -/
def ghostFamily : List FamilyMember := [ghostKid "GK1", ghostKid "GK2"]

/-- C8 is false of the code as claimed: the two ghost siblings share an
identical non-empty `parentIds` list, yet after layout they keep their stale
y = 7, which is not `-generation * generationSpacing` (and their x
coordinates coincide instead of sitting `siblingSpacing` apart). -/
theorem C8_counterexample :
    ∃ p ∈ calculateLayout ghostFamily DEFAULT_CONFIG,
      ∃ q ∈ calculateLayout ghostFamily DEFAULT_CONFIG,
        p.id ≠ q.id ∧ p.parentIds = q.parentIds ∧ p.parentIds ≠ [] ∧
          p.position.y ≠
            -(p.generation : ℚ) * DEFAULT_CONFIG.generationSpacing := by
  have h : calculateLayoutFuel ghostFamily DEFAULT_CONFIG 10
      = some ((calculateLayoutFuel ghostFamily DEFAULT_CONFIG 10).get
        (by decide)) :=
    Option.eq_some_of_isSome (by decide)
  rw [calculateLayout_eq_of_fuel h]
  decide

theorem mem_enumFrom_of_mem {α : Type} {x : α} :
    ∀ {l : List α} (n : Nat), x ∈ l → ∃ i, (i, x) ∈ l.enumFrom n := by
  intro l
  induction l with
  | nil => intro n h; cases h
  | cons y t ih =>
    intro n h
    rcases List.mem_cons.1 h with rfl | h'
    · exact ⟨n, List.mem_cons_self _ _⟩
    · obtain ⟨i, hi⟩ := ih (n + 1) h'
      exact ⟨i, List.mem_cons_of_mem _ hi⟩

theorem enumFrom_fst_ge {α : Type} :
    ∀ {l : List α} {n i : Nat} {x : α}, (i, x) ∈ l.enumFrom n → n ≤ i := by
  intro l
  induction l with
  | nil => intro n i x h; cases h
  | cons y t ih =>
    intro n i x h
    rcases List.mem_cons.1 h with heq | h'
    · injection heq with h1 h2
      omega
    · have := ih h'
      omega

/-- The index determines the entry in an enumeration. -/
theorem enumFrom_functional {α : Type} :
    ∀ {l : List α} {n i : Nat} {x y : α},
      (i, x) ∈ l.enumFrom n → (i, y) ∈ l.enumFrom n → x = y := by
  intro l
  induction l with
  | nil => intro n i x y h; cases h
  | cons z t ih =>
    intro n i x y hx hy
    rcases List.mem_cons.1 hx with heqx | hx'
    · rcases List.mem_cons.1 hy with heqy | hy'
      · injection heqx with h1 h2
        injection heqy with h3 h4
        rw [h2, h4]
      · injection heqx with h1 h2
        exfalso
        have := enumFrom_fst_ge hy'
        omega
    · rcases List.mem_cons.1 hy with heqy | hy'
      · injection heqy with h3 h4
        exfalso
        have := enumFrom_fst_ge hx'
        omega
      · exact ih hx' hy'

/-- Every generation that occurs in the visit log occurs among the keys of the
`generations` map. -/
theorem mem_genKeys {visits : List (FamilyMember × Nat)}
    {v : FamilyMember × Nat} (hv : v ∈ visits) : v.2 ∈ genKeys visits := by
  unfold genKeys
  have key : ∀ (l : List (FamilyMember × Nat)) (acc : List Nat),
      (∀ g ∈ acc,
          g ∈ l.foldl (fun a e => if e.2 ∈ a then a else a ++ [e.2]) acc) ∧
        (∀ w ∈ l,
          w.2 ∈ l.foldl (fun a e => if e.2 ∈ a then a else a ++ [e.2]) acc) := by
    intro l
    induction l with
    | nil => exact fun acc => ⟨fun g hg => hg, by simp⟩
    | cons w t ih =>
      intro acc
      constructor
      · intro g hg
        rw [List.foldl_cons]
        apply (ih _).1
        by_cases hw : w.2 ∈ acc
        · rw [if_pos hw]; exact hg
        · rw [if_neg hw]; exact List.mem_append_left _ hg
      · intro u hu
        rw [List.foldl_cons]
        rcases List.mem_cons.1 hu with rfl | hu'
        · apply (ih _).1
          by_cases hw : u.2 ∈ acc
          · rw [if_pos hw]; exact hw
          · rw [if_neg hw]; exact List.mem_append_right _ (by simp)
        · exact (ih _).2 u hu'
  exact (key visits []).2 v hv

/-- Under unique member ids and duplicate-free children lists, one visit
enqueues a given member at most once: exactly when its id is a not-yet-visited
listed child. -/
theorem freshChildren_filter (ms : List FamilyMember)
    (hnodup : (ms.map (fun m => m.id)).Nodup) (visited : List String)
    {a : FamilyMember} (ha : a ∈ ms) :
    ∀ {l : List String}, l.Nodup →
      ((a.id ∈ l ∧ a.id ∉ visited →
          (l.filterMap (fun cid =>
            (mapGet ms cid).bind
              (fun c => if cid ∈ visited then none else some c))).filter
            (fun c => c.id == a.id) = [a]) ∧
        (a.id ∉ l ∨ a.id ∈ visited →
          (l.filterMap (fun cid =>
            (mapGet ms cid).bind
              (fun c => if cid ∈ visited then none else some c))).filter
            (fun c => c.id == a.id) = [])) := by
  intro l
  induction l with
  | nil =>
    intro _
    exact ⟨fun h => absurd h.1 (List.not_mem_nil _), fun _ => rfl⟩
  | cons cid t ih =>
    intro hnd
    have htnd := (List.nodup_cons.1 hnd).2
    have hhd := (List.nodup_cons.1 hnd).1
    by_cases hcid : cid = a.id
    · subst hcid
      constructor
      · intro ⟨_, hvd⟩
        simp only [List.filterMap_cons, mapGet_self hnodup ha,
          Option.bind_some, if_neg hvd]
        rw [List.filter_cons_of_pos]
        · rw [(ih htnd).2 (Or.inl hhd)]
        · simp
      · intro h
        rcases h with h | h
        · exact absurd (List.mem_cons_self _ _) h
        · simp only [List.filterMap_cons, mapGet_self hnodup ha,
            Option.bind_some, if_pos h]
          exact (ih htnd).2 (Or.inr h)
    · have hhead : ∀ r, (mapGet ms cid).bind
          (fun c => if cid ∈ visited then none else some c) = some r →
          (r.id == a.id) = false := by
        intro r hr
        cases hget : mapGet ms cid with
        | none => rw [hget] at hr; simp at hr
        | some c =>
          rw [hget] at hr
          by_cases hvv : cid ∈ visited
          · simp [hvv] at hr
          · simp only [Option.bind_some, if_neg hvv,
              Option.some.injEq] at hr
            subst hr
            have := (mapGet_eq_some hget).2
            rw [beq_eq_false_iff_ne]
            rw [this]
            exact hcid
      have hstep : (((cid :: t).filterMap (fun cid =>
            (mapGet ms cid).bind
              (fun c => if cid ∈ visited then none else some c))).filter
            (fun c => c.id == a.id)) =
          ((t.filterMap (fun cid =>
            (mapGet ms cid).bind
              (fun c => if cid ∈ visited then none else some c))).filter
            (fun c => c.id == a.id)) := by
        rw [List.filterMap_cons]
        cases hr : (mapGet ms cid).bind
            (fun c => if cid ∈ visited then none else some c) with
        | none => rfl
        | some r =>
          rw [List.filter_cons_of_neg]
          simp [hhead r hr]
      constructor
      · intro ⟨hmem, hvd⟩
        rw [hstep]
        rcases List.mem_cons.1 hmem with h | h
        · exact absurd h.symm hcid
        · exact (ih htnd).1 ⟨h, hvd⟩
      · intro h
        rw [hstep]
        rcases h with h | h
        · exact (ih htnd).2 (Or.inl (fun hc => h (List.mem_cons_of_mem _ hc)))
        · exact (ih htnd).2 (Or.inr h)

/-- Applying an update list with pairwise-distinct target ids writes exactly
the listed position of each targeted id, as observed through `find?`. -/
theorem applyUpdates_find?_of_mem :
    ∀ (U : List (String × Position3D)) {i : String} {p : Position3D}
      (L : List FamilyMember),
      (U.map Prod.fst).Nodup → (i, p) ∈ U →
      (applyUpdates U L).find? (fun m => m.id == i) =
        (L.find? (fun m => m.id == i)).map
          (fun m => { m with position := p }) := by
  intro U
  induction U with
  | nil => intro i p L _ h; cases h
  | cons u U ih =>
    intro i p L hnd hmem
    rw [applyUpdates_cons]
    rcases List.mem_cons.1 hmem with heq | hmem'
    · have hu1 : u.1 = i := by rw [← heq]
      have hu2 : u.2 = p := by rw [← heq]
      have hfresh : ∀ v ∈ U, v.1 ≠ i := by
        intro v hv hEq
        rw [List.map_cons] at hnd
        rw [← hu1] at hEq
        exact (List.nodup_cons.1 hnd).1
          (hEq ▸ List.mem_map_of_mem Prod.fst hv)
      rw [hu1, hu2, applyUpdates_find?_of_not_mem hfresh,
        setPosById_find?_self]
    · have hne : u.1 ≠ i := by
        intro hEq
        rw [List.map_cons] at hnd
        exact (List.nodup_cons.1 hnd).1
          (hEq ▸ List.mem_map_of_mem Prod.fst hmem')
      have htnd : (U.map Prod.fst).Nodup := by
        rw [List.map_cons] at hnd
        exact (List.nodup_cons.1 hnd).2
      rw [ih (setPosById L u.1 u.2) htnd hmem',
        setPosById_find?_other hne]

/-- Effect of the generation-assignment pass on an id lookup. -/
theorem applyGenerations_find? (visits : List (FamilyMember × Nat))
    (ms : List FamilyMember) (i : String) :
    (applyGenerations visits ms).find? (fun m => m.id == i) =
      (ms.find? (fun m => m.id == i)).map (fun m =>
        match visits.find? (fun v => v.1.id == m.id) with
        | some v => { m with generation := v.2 }
        | none => m) := by
  unfold applyGenerations
  have hpred : ((fun m => m.id == i) ∘ (fun m : FamilyMember =>
      match visits.find? (fun v => v.1.id == m.id) with
      | some v => { m with generation := v.2 }
      | none => m)) = (fun m : FamilyMember => m.id == i) := by
    funext m
    show ((match visits.find? (fun v : FamilyMember × Nat => v.1.id == m.id) with
        | some v => { m with generation := v.2 }
        | none => m).id == i) = (m.id == i)
    cases visits.find? (fun v : FamilyMember × Nat => v.1.id == m.id) <;> rfl
  rw [List.find?_map, hpred]

/-- The update written for the member at position `i` of a sibling group. -/
theorem mem_sibUpdates {G : List FamilyMember} {i : Nat} {w : FamilyMember}
    (h : (i, w) ∈ G.enum) (startX sibSpacing y : ℚ) :
    (w.id,
        ({ x := startX + (i : ℚ) * sibSpacing, y := y,
           z := calculateZPosition w } : Position3D)) ∈
      sibUpdates G startX sibSpacing y := by
  unfold sibUpdates
  exact List.mem_map.2 ⟨(i, w), h, rfl⟩

/-- Each sibling group's updates occur, for some group start coordinate,
inside the updates of the whole generation. -/
theorem sibUpdates_subset_groupUpdates (config : TreeLayoutConfig) (y : ℚ) :
    ∀ (groups : List (List FamilyMember)) (currentX : ℚ)
      {G : List FamilyMember}, G ∈ groups →
      ∃ s, ∀ u ∈ sibUpdates G s config.siblingSpacing y,
        u ∈ groupUpdates config y groups currentX := by
  intro groups
  induction groups with
  | nil => intro currentX G h; cases h
  | cons G' rest ih =>
    intro currentX G hG
    rcases List.mem_cons.1 hG with rfl | hG'
    · refine ⟨currentX - ((G.length : ℚ) - 1) * config.siblingSpacing / 2, ?_⟩
      intro u hu
      rw [groupUpdates]
      exact List.mem_append_left _ hu
    · obtain ⟨s, hs⟩ := ih
        (currentX + ((G'.length : ℚ) - 1) * config.siblingSpacing +
          config.branchSpacing) hG'
      refine ⟨s, ?_⟩
      intro u hu
      rw [groupUpdates]
      exact List.mem_append_right _ (hs u hu)

/-- The generations at which entries for a given id sit on the BFS queue, in
queue order. -/
def idGens (queue : List (FamilyMember × Nat)) (i : String) : List Nat :=
  (queue.filter (fun e => e.1.id == i)).map (fun e => e.2)

theorem idGens_cons_pos {m : FamilyMember} {g : Nat}
    {rest : List (FamilyMember × Nat)} {i : String} (h : m.id = i) :
    idGens ((m, g) :: rest) i = g :: idGens rest i := by
  unfold idGens
  rw [List.filter_cons_of_pos]
  · rfl
  · simp [h]

theorem idGens_cons_neg {m : FamilyMember} {g : Nat}
    {rest : List (FamilyMember × Nat)} {i : String} (h : m.id ≠ i) :
    idGens ((m, g) :: rest) i = idGens rest i := by
  unfold idGens
  rw [List.filter_cons_of_neg]
  simp [h]

theorem idGens_append (q1 q2 : List (FamilyMember × Nat)) (i : String) :
    idGens (q1 ++ q2) i = idGens q1 i ++ idGens q2 i := by
  unfold idGens
  rw [List.filter_append, List.map_append]

/-- The queue entries one visit creates for a fixed member: a single entry one
generation down when the member is an unvisited listed child, none
otherwise. -/
theorem idGens_freshEntries (ms : List FamilyMember)
    (hnodup : (ms.map (fun m => m.id)).Nodup) (visited : List String)
    {a : FamilyMember} (ha : a ∈ ms) {m : FamilyMember}
    (hchm : m.childrenIds.Nodup) (g : Nat) :
    idGens ((freshChildren ms visited m).map (fun c => (c, g + 1))) a.id =
      if a.id ∈ m.childrenIds ∧ a.id ∉ visited then [g + 1] else [] := by
  unfold idGens freshChildren
  rw [List.filter_map]
  have hcomp : ((fun e : FamilyMember × Nat => e.1.id == a.id) ∘
      (fun c : FamilyMember => (c, g + 1))) =
      (fun c : FamilyMember => c.id == a.id) := rfl
  rw [hcomp]
  by_cases hc : a.id ∈ m.childrenIds ∧ a.id ∉ visited
  · rw [(freshChildren_filter ms hnodup visited ha hchm).1 hc, if_pos hc]
    rfl
  · rw [(freshChildren_filter ms hnodup visited ha hchm).2 (by tauto),
      if_neg hc]
    rfl

/-- Two members with the same unvisited-child status towards every family
member (in particular, full siblings in a well-formed pedigree) stay
synchronized through the BFS: either both end up in the visit log at the same
generation, or the first never reaches the log at all.  The three invariant
disjuncts track the phases: both still queued with identical pending
generation lists, or one already visited at the generation heading the
other's pending list. -/
theorem bfsAux_sibling_sync (ms : List FamilyMember)
    (hnodup : (ms.map (fun m => m.id)).Nodup)
    (hch : ∀ m ∈ ms, m.childrenIds.Nodup)
    {a b : FamilyMember} (ha : a ∈ ms) (hb : b ∈ ms) (hab : a.id ≠ b.id)
    (hchiff : ∀ m ∈ ms, (a.id ∈ m.childrenIds ↔ b.id ∈ m.childrenIds)) :
    ∀ (queue : List (FamilyMember × Nat)) (visited : List String)
      (acc : List (FamilyMember × Nat)),
      (∀ e ∈ queue, e.1 ∈ ms) →
      (∀ v ∈ acc, v.1.id ∈ visited) →
      ((∃ g, (a, g) ∈ acc ∧ (b, g) ∈ acc) ∨
        (a.id ∉ visited ∧ b.id ∉ visited ∧
          idGens queue a.id = idGens queue b.id) ∨
        (∃ g t, (a, g) ∈ acc ∧ b.id ∉ visited ∧
          idGens queue b.id = g :: t) ∨
        (∃ g t, (b, g) ∈ acc ∧ a.id ∉ visited ∧
          idGens queue a.id = g :: t)) →
      ((∃ g, (a, g) ∈ bfsAux ms queue visited acc ∧
          (b, g) ∈ bfsAux ms queue visited acc) ∨
        a.id ∉ (bfsAux ms queue visited acc).map (fun v => v.1.id)) := by
  intro queue visited acc
  induction queue, visited, acc using bfsAux.induct ms with
  | case1 visited acc =>
    intro _ hacc hinv
    rw [bfsAux]
    rcases hinv with ⟨g, h1, h2⟩ | ⟨hav, _, _⟩ | ⟨g, t, _, _, hgt⟩ |
      ⟨g, t, _, _, hgt⟩
    · exact Or.inl ⟨g, h1, h2⟩
    · refine Or.inr ?_
      intro hmem
      obtain ⟨v, hvmem, hvid⟩ := List.mem_map.1 hmem
      exact hav (hvid ▸ hacc v hvmem)
    · exact absurd hgt (by simp [idGens])
    · exact absurd hgt (by simp [idGens])
  | case2 visited acc m g rest hv ih =>
    intro hQ hacc hinv
    rw [bfsAux, if_pos hv]
    apply ih (fun e he => hQ e (List.mem_cons_of_mem _ he)) hacc
    rcases hinv with ⟨g', h1, h2⟩ | ⟨hav, hbv, heq⟩ | ⟨g', t, h1, hbv, hgt⟩ |
      ⟨g', t, h1, hav, hgt⟩
    · exact Or.inl ⟨g', h1, h2⟩
    · have hma : m.id ≠ a.id := fun hc => hav (hc ▸ hv)
      have hmb : m.id ≠ b.id := fun hc => hbv (hc ▸ hv)
      rw [idGens_cons_neg hma, idGens_cons_neg hmb] at heq
      exact Or.inr (Or.inl ⟨hav, hbv, heq⟩)
    · have hmb : m.id ≠ b.id := fun hc => hbv (hc ▸ hv)
      rw [idGens_cons_neg hmb] at hgt
      exact Or.inr (Or.inr (Or.inl ⟨g', t, h1, hbv, hgt⟩))
    · have hma : m.id ≠ a.id := fun hc => hav (hc ▸ hv)
      rw [idGens_cons_neg hma] at hgt
      exact Or.inr (Or.inr (Or.inr ⟨g', t, h1, hav, hgt⟩))
  | case3 visited acc m g rest hv ih =>
    intro hQ hacc hinv
    rw [bfsAux, if_neg hv]
    have hmms : m ∈ ms := hQ (m, g) (List.mem_cons_self _ _)
    have hQ' : ∀ e ∈ rest ++ (freshChildren ms visited m).map
        (fun c => (c, g + 1)), e.1 ∈ ms := by
      intro e he
      rcases List.mem_append.1 he with h | h
      · exact hQ e (List.mem_cons_of_mem _ h)
      · obtain ⟨c, hc, rfl⟩ := List.mem_map.1 h
        exact (mem_freshChildren hc).1
    have hacc' : ∀ v ∈ acc ++ [(m, g)], v.1.id ∈ m.id :: visited := by
      intro v hvm
      rcases List.mem_append.1 hvm with h | h
      · exact List.mem_cons_of_mem _ (hacc v h)
      · rw [List.mem_singleton.1 h]
        exact List.mem_cons_self _ _
    apply ih hQ' hacc'
    have hfae := idGens_freshEntries ms hnodup visited ha (hch m hmms) g
    have hfbe := idGens_freshEntries ms hnodup visited hb (hch m hmms) g
    rcases hinv with ⟨g', h1, h2⟩ | ⟨hav, hbv, heq⟩ | ⟨g', t, h1, hbv, hgt⟩ |
      ⟨g', t, h1, hav, hgt⟩
    · exact Or.inl ⟨g', List.mem_append_left _ h1, List.mem_append_left _ h2⟩
    · by_cases hma : m.id = a.id
      · have hmb : m.id ≠ b.id := by
          rw [hma]
          exact hab
        rw [idGens_cons_pos hma, idGens_cons_neg hmb] at heq
        have hmaeq : m = a := List.inj_on_of_nodup_map hnodup hmms ha hma
        have hbv' : b.id ∉ m.id :: visited := by
          intro hcm
          rcases List.mem_cons.1 hcm with h | h
          · rw [hma] at h
            exact hab h.symm
          · exact hbv h
        refine Or.inr (Or.inr (Or.inl ⟨g,
          idGens rest a.id ++ idGens ((freshChildren ms visited m).map
            (fun c => (c, g + 1))) b.id, ?_, hbv', ?_⟩))
        · rw [hmaeq]
          exact List.mem_append_right _ (List.mem_singleton.2 rfl)
        · rw [idGens_append, ← heq, List.cons_append]
      · by_cases hmb : m.id = b.id
        · rw [idGens_cons_pos hmb, idGens_cons_neg hma] at heq
          have hmbeq : m = b := List.inj_on_of_nodup_map hnodup hmms hb hmb
          have hav' : a.id ∉ m.id :: visited := by
            intro hcm
            rcases List.mem_cons.1 hcm with h | h
            · rw [hmb] at h
              exact hab h
            · exact hav h
          refine Or.inr (Or.inr (Or.inr ⟨g,
            idGens rest b.id ++ idGens ((freshChildren ms visited m).map
              (fun c => (c, g + 1))) a.id, ?_, hav', ?_⟩))
          · rw [hmbeq]
            exact List.mem_append_right _ (List.mem_singleton.2 rfl)
          · rw [idGens_append, heq, List.cons_append]
        · have hav' : a.id ∉ m.id :: visited := by
            intro hcm
            rcases List.mem_cons.1 hcm with h | h
            · exact hma h.symm
            · exact hav h
          have hbv' : b.id ∉ m.id :: visited := by
            intro hcm
            rcases List.mem_cons.1 hcm with h | h
            · exact hmb h.symm
            · exact hbv h
          rw [idGens_cons_neg hma, idGens_cons_neg hmb] at heq
          have hfeq : idGens ((freshChildren ms visited m).map
              (fun c => (c, g + 1))) a.id =
              idGens ((freshChildren ms visited m).map
                (fun c => (c, g + 1))) b.id := by
            rw [hfae, hfbe]
            by_cases hina : a.id ∈ m.childrenIds
            · rw [if_pos ⟨hina, hav⟩, if_pos ⟨(hchiff m hmms).1 hina, hbv⟩]
            · rw [if_neg (fun hcc => hina hcc.1),
                if_neg (fun hcc => hina ((hchiff m hmms).2 hcc.1))]
          refine Or.inr (Or.inl ⟨hav', hbv', ?_⟩)
          rw [idGens_append, idGens_append, heq, hfeq]
    · by_cases hmb : m.id = b.id
      · rw [idGens_cons_pos hmb] at hgt
        injection hgt with hgg htt
        have hmbeq : m = b := List.inj_on_of_nodup_map hnodup hmms hb hmb
        refine Or.inl ⟨g', List.mem_append_left _ h1, ?_⟩
        rw [hmbeq, hgg]
        exact List.mem_append_right _ (List.mem_singleton.2 rfl)
      · have hbv' : b.id ∉ m.id :: visited := by
          intro hcm
          rcases List.mem_cons.1 hcm with h | h
          · exact hmb h.symm
          · exact hbv h
        rw [idGens_cons_neg hmb] at hgt
        refine Or.inr (Or.inr (Or.inl ⟨g',
          t ++ idGens ((freshChildren ms visited m).map
            (fun c => (c, g + 1))) b.id,
          List.mem_append_left _ h1, hbv', ?_⟩))
        rw [idGens_append, hgt, List.cons_append]
    · by_cases hma : m.id = a.id
      · rw [idGens_cons_pos hma] at hgt
        injection hgt with hgg htt
        have hmaeq : m = a := List.inj_on_of_nodup_map hnodup hmms ha hma
        refine Or.inl ⟨g', ?_, List.mem_append_left _ h1⟩
        rw [hmaeq, hgg]
        exact List.mem_append_right _ (List.mem_singleton.2 rfl)
      · have hav' : a.id ∉ m.id :: visited := by
          intro hcm
          rcases List.mem_cons.1 hcm with h | h
          · exact hma h.symm
          · exact hav h
        rw [idGens_cons_neg hma] at hgt
        refine Or.inr (Or.inr (Or.inr ⟨g',
          t ++ idGens ((freshChildren ms visited m).map
            (fun c => (c, g + 1))) a.id,
          List.mem_append_left _ h1, hav', ?_⟩))
        rw [idGens_append, hgt, List.cons_append]

/-- Amended C8: on well-formed pedigrees (unique member ids, duplicate-free
children lists, resolving parents, mirrored `parentIds`/`childrenIds`, acyclic
ranked parenthood), any two distinct reachable members with the same non-empty
parent set are visited at one common generation and placed with
y = -generation * generationSpacing (identical for both) and x coordinates at
two distinct multiples of `siblingSpacing` from their group's start
coordinate.  Unreachable members (the recorded counterexample) keep their
stale coordinates, so the claim's unconditional version fails. -/
theorem C8_amended_sibling_layout (ms : List FamilyMember)
    (config : TreeLayoutConfig) (rank : String → Nat)
    (hnodup : (ms.map (fun m => m.id)).Nodup)
    (hch : ∀ m ∈ ms, m.childrenIds.Nodup)
    (hrank : ∀ m ∈ ms, ∀ pid ∈ m.parentIds, rank pid < rank m.id)
    (hres : ∀ m ∈ ms, ∀ pid ∈ m.parentIds, (mapGet ms pid).isSome = true)
    (hsym1 : ∀ m ∈ ms, ∀ pid ∈ m.parentIds, ∀ q ∈ ms, q.id = pid →
      m.id ∈ q.childrenIds)
    (hsym2 : ∀ q ∈ ms, ∀ cid ∈ q.childrenIds, ∀ c ∈ ms, c.id = cid →
      q.id ∈ c.parentIds)
    {a b : FamilyMember} (ha : a ∈ ms) (hb : b ∈ ms) (hab : a.id ≠ b.id)
    (hsame : haveSameParents a b = true) (hane : a.parentIds ≠ []) :
    ∃ pa ∈ calculateLayout ms config, ∃ pb ∈ calculateLayout ms config,
      pa.id = a.id ∧ pb.id = b.id ∧ pa.generation = pb.generation ∧
        pa.position.y = -(pa.generation : ℚ) * config.generationSpacing ∧
        pb.position.y = pa.position.y ∧
        ∃ s : ℚ, ∃ i j : Nat, i ≠ j ∧
          pa.position.x = s + (i : ℚ) * config.siblingSpacing ∧
          pb.position.x = s + (j : ℚ) * config.siblingSpacing := by
  have hiff : ∀ pid, pid ∈ a.parentIds ↔ pid ∈ b.parentIds := by
    intro pid
    rw [← List.mem_toFinset, ← List.mem_toFinset,
      (haveSameParents_iff.1 hsame).2]
  have hchiff : ∀ m ∈ ms, (a.id ∈ m.childrenIds ↔ b.id ∈ m.childrenIds) := by
    intro m hm
    constructor
    · intro h
      exact hsym1 b hb m.id ((hiff m.id).1 (hsym2 m hm a.id h a ha rfl)) m hm
        rfl
    · intro h
      exact hsym1 a ha m.id ((hiff m.id).2 (hsym2 m hm b.id h b hb rfl)) m hm
        rfl
  have hcomplete := organizeByGenerations_complete ms hnodup rank hrank hres
    hsym1
  have hbne : b.parentIds ≠ [] := haveSameParents_nonempty hsame hane
  have hroots : ∀ (w : FamilyMember), w ∈ ms → w.parentIds ≠ [] →
      idGens ((ms.filter (fun m => m.parentIds.isEmpty)).map
        (fun m => (m, 0))) w.id = [] := by
    intro w hwms hwne
    unfold idGens
    have hnilf : ((ms.filter (fun m => m.parentIds.isEmpty)).map
        (fun m => (m, 0))).filter (fun e => e.1.id == w.id) = [] := by
      rw [List.filter_eq_nil_iff]
      intro e he
      obtain ⟨u, hu, rfl⟩ := List.mem_map.1 he
      obtain ⟨hums, huroot⟩ := List.mem_filter.1 hu
      intro hgid
      simp only [beq_iff_eq] at hgid
      have huw : u = w := List.inj_on_of_nodup_map hnodup hums hwms hgid
      apply hwne
      rw [← huw]
      cases hup : u.parentIds with
      | nil => rfl
      | cons x xs =>
        exfalso
        have hue : u.parentIds.isEmpty = true := huroot
        rw [hup] at hue
        simp at hue
    rw [hnilf]
    rfl
  have hsync := bfsAux_sibling_sync ms hnodup hch ha hb hab hchiff
    ((ms.filter (fun m => m.parentIds.isEmpty)).map (fun m => (m, 0))) [] []
    (by
      intro e he
      obtain ⟨w, hw, rfl⟩ := List.mem_map.1 he
      exact List.mem_of_mem_filter hw)
    (by simp)
    (Or.inr (Or.inl ⟨by simp, by simp,
      by rw [hroots a ha hane, hroots b hb hbne]⟩))
  have hvisits : ∃ g, (a, g) ∈ organizeByGenerations ms ∧
      (b, g) ∈ organizeByGenerations ms := by
    rcases hsync with h | hnot
    · exact h
    · exfalso
      have hc : a.id ∈ (bfsAux ms
          ((ms.filter (fun m => m.parentIds.isEmpty)).map (fun m => (m, 0)))
          [] []).map (fun v => v.1.id) := hcomplete a ha
      exact hnot hc
  obtain ⟨g, hag, hbg⟩ := hvisits
  have hvnodup := organizeByGenerations_ids_nodup ms
  obtain ⟨hA1, hA2, hA3⟩ := organizeByGenerations_gen ms hsym2
  obtain ⟨ga, hfva⟩ := visits_find_self ms hnodup hA1 ha (hcomplete a ha)
  have hgaeq : (a, ga) = (a, g) :=
    List.inj_on_of_nodup_map hvnodup (List.mem_of_find?_eq_some hfva) hag rfl
  have hga : ga = g := by injection hgaeq
  rw [hga] at hfva
  obtain ⟨gb, hfvb⟩ := visits_find_self ms hnodup hA1 hb (hcomplete b hb)
  have hgbeq : (b, gb) = (b, g) :=
    List.inj_on_of_nodup_map hvnodup (List.mem_of_find?_eq_some hfvb) hbg rfl
  have hgb : gb = g := by injection hgbeq
  rw [hgb] at hfvb
  have habucket : a ∈ genBucket (organizeByGenerations ms) g := by
    unfold genBucket
    exact List.mem_map.2 ⟨(a, g), List.mem_filter.2 ⟨hag, by simp⟩, rfl⟩
  have hbbucket : b ∈ genBucket (organizeByGenerations ms) g := by
    unfold genBucket
    exact List.mem_map.2 ⟨(b, g), List.mem_filter.2 ⟨hbg, by simp⟩, rfl⟩
  have hbnd := genBucket_ids_nodup hvnodup g
  obtain ⟨c1, c2, c3⟩ := groupSiblingsAux_spec
    (genBucket (organizeByGenerations ms) g) hbnd
    (genBucket (organizeByGenerations ms) g) [] [] (fun x hx => hx)
    (by simp) (by simp [gIds]) (by simp)
  rcases c3 a habucket with habs | ⟨G, hG, haG⟩
  · simp at habs
  rcases c2 G hG with hmem | ⟨m₀, hm₀, hshape⟩
  · simp at hmem
  rcases hshape with ⟨hm₀nil, hGeq⟩ | ⟨hm₀ne, hGeq⟩
  · rw [hGeq, List.mem_singleton] at haG
    exact absurd (by rw [haG]; exact hm₀nil) hane
  · have hm₀a : haveSameParents m₀ a = true := by
      rw [hGeq] at haG
      exact (List.mem_filter.1 haG).2
    have hm₀b : haveSameParents m₀ b = true := haveSameParents_trans hm₀a hsame
    have hbG : b ∈ G := by
      rw [hGeq]
      exact List.mem_filter.2 ⟨hbbucket, hm₀b⟩
    obtain ⟨i, hi⟩ := mem_enumFrom_of_mem 0 haG
    obtain ⟨j, hj⟩ := mem_enumFrom_of_mem 0 hbG
    have hij : i ≠ j := by
      intro hc
      apply hab
      subst hc
      rw [enumFrom_functional hi hj]
    have hgkey : g ∈ genKeys (organizeByGenerations ms) := mem_genKeys hag
    obtain ⟨s, hs⟩ := sibUpdates_subset_groupUpdates config
      (-(g : ℚ) * config.generationSpacing)
      (groupSiblings (genBucket (organizeByGenerations ms) g)) 0 hG
    have hua : (a.id,
        ({ x := s + (i : ℚ) * config.siblingSpacing,
           y := -(g : ℚ) * config.generationSpacing,
           z := calculateZPosition a } : Position3D)) ∈
        layoutUpdates config (organizeByGenerations ms) := by
      unfold layoutUpdates
      refine List.mem_flatMap.2 ⟨g, hgkey, ?_⟩
      exact hs _ (mem_sibUpdates hi s config.siblingSpacing
        (-(g : ℚ) * config.generationSpacing))
    have hub : (b.id,
        ({ x := s + (j : ℚ) * config.siblingSpacing,
           y := -(g : ℚ) * config.generationSpacing,
           z := calculateZPosition b } : Position3D)) ∈
        layoutUpdates config (organizeByGenerations ms) := by
      unfold layoutUpdates
      refine List.mem_flatMap.2 ⟨g, hgkey, ?_⟩
      exact hs _ (mem_sibUpdates hj s config.siblingSpacing
        (-(g : ℚ) * config.generationSpacing))
    have hUnodup := layoutUpdates_ids_nodup config hvnodup
    have hmida : (applyGenerations (organizeByGenerations ms) ms).find?
        (fun m => m.id == a.id) = some { a with generation := g } := by
      rw [applyGenerations_find?, find?_id_self hnodup ha, Option.map_some',
        hfva]
    have hmidb : (applyGenerations (organizeByGenerations ms) ms).find?
        (fun m => m.id == b.id) = some { b with generation := g } := by
      rw [applyGenerations_find?, find?_id_self hnodup hb, Option.map_some',
        hfvb]
    have houta : (calculateLayout ms config).find?
        (fun m => m.id == a.id) =
        some { { a with generation := g } with position :=
          { x := s + (i : ℚ) * config.siblingSpacing,
            y := -(g : ℚ) * config.generationSpacing,
            z := calculateZPosition a } } := by
      rw [calculateLayout_eq,
        applyUpdates_find?_of_mem (layoutUpdates config
          (organizeByGenerations ms)) _ hUnodup hua,
        hmida, Option.map_some']
    have houtb : (calculateLayout ms config).find?
        (fun m => m.id == b.id) =
        some { { b with generation := g } with position :=
          { x := s + (j : ℚ) * config.siblingSpacing,
            y := -(g : ℚ) * config.generationSpacing,
            z := calculateZPosition b } } := by
      rw [calculateLayout_eq,
        applyUpdates_find?_of_mem (layoutUpdates config
          (organizeByGenerations ms)) _ hUnodup hub,
        hmidb, Option.map_some']
    exact ⟨_, List.mem_of_find?_eq_some houta,
      _, List.mem_of_find?_eq_some houtb,
      rfl, rfl, rfl, rfl, rfl, s, i, j, hij, rfl, rfl⟩

/-- A three-member family: one root parent with two children, who are full
siblings. -/
def sibP : FamilyMember := mkMember "P" Gender.male [] ["S1", "S2"]

def sibS1 : FamilyMember := mkMember "S1" Gender.male ["P"] []

def sibS2 : FamilyMember := mkMember "S2" Gender.female ["P"] []

def sibFamily : List FamilyMember := [sibP, sibS1, sibS2]

/-- A rank function witnessing the acyclicity of the sibling pedigree. -/
def sibRank (s : String) : Nat := if s = "P" then 0 else 1

/-- Witness for the amended C8 theorem at the sibling pedigree. -/
theorem C8_witness :
    ∃ pa ∈ calculateLayout sibFamily DEFAULT_CONFIG,
      ∃ pb ∈ calculateLayout sibFamily DEFAULT_CONFIG,
        pa.id = sibS1.id ∧ pb.id = sibS2.id ∧
          pa.generation = pb.generation ∧
          pa.position.y =
            -(pa.generation : ℚ) * DEFAULT_CONFIG.generationSpacing ∧
          pb.position.y = pa.position.y ∧
          ∃ s : ℚ, ∃ i j : Nat, i ≠ j ∧
            pa.position.x = s + (i : ℚ) * DEFAULT_CONFIG.siblingSpacing ∧
            pb.position.x = s + (j : ℚ) * DEFAULT_CONFIG.siblingSpacing :=
  C8_amended_sibling_layout sibFamily DEFAULT_CONFIG sibRank
    (by decide) (by decide) (by decide) (by decide) (by decide) (by decide)
    (by decide) (by decide) (by decide) (by decide) (by decide)

end Genehive
